import Mathlib

set_option maxRecDepth 10000

/-!
Shallow embedding of `src/migrate_tags.py` (the tag-migration core of the
lexera repository).

The Python core works on strings; here a document or line is a `List Char`.
The regular expressions of the source are embedded as executable matchers:
a `Matcher` sends a suffix of the subject to the list of lengths its pattern
can consume, listed in the exact preference order of Python's backtracking
engine (alternatives left to right, greedy quantifiers longest first), so
that "first length whose continuation also matches" reproduces `re` match
selection.  `\s`, `\d` and `re.IGNORECASE` are modelled over ASCII, matching
the documents the script is written for.
-/

/-- Characters of Python's `\s` class (ASCII range). -/
def spaceChars : List Char := [' ', '\t', '\n', '\r', '\x0B', '\x0C']

/-- Test for Python's `\s` (ASCII range). -/
def isSpaceB (c : Char) : Bool := decide (c ∈ spaceChars)

/-- Characters of Python's `\d` class (ASCII range). -/
def digitChars : List Char := ['0', '1', '2', '3', '4', '5', '6', '7', '8', '9']

/-- A matcher maps a suffix of the subject to the lengths it can consume, in
Python backtracking preference order. -/
def Matcher : Type := List Char → List Nat

/-- The empty pattern: consumes nothing. -/
def mEps : Matcher := fun _ => [0]

/-- A character class `[...]`: consumes one character from `cs`. -/
def mChars (cs : List Char) : Matcher := fun s =>
  match s with
  | [] => []
  | c :: _ => if c ∈ cs then [1] else []

/-- Length of the run of characters from `cs` at the head of the list. -/
def countLead (cs : List Char) : List Char → Nat
  | [] => 0
  | c :: r => if c ∈ cs then countLead cs r + 1 else 0

/-- The list `[r, r-1, ..., lo]` (empty when `r < lo`): greedy preference
order for a counted repetition. -/
def descRange (lo r : Nat) : List Nat := (List.range' lo (r + 1 - lo)).reverse

/-- Greedy counted repetition `[cs]{lo,hi}` of a character class. -/
def mRep (cs : List Char) (lo hi : Nat) : Matcher := fun s =>
  descRange lo (min hi (countLead cs s))

/-- `\d{lo,hi}` (ASCII). -/
def mDigits (lo hi : Nat) : Matcher := mRep digitChars lo hi

/-- Concatenation of two patterns; preference order is the engine's
backtracking order (left choice outermost). -/
def mSeq (m1 m2 : Matcher) : Matcher := fun s =>
  (m1 s).flatMap (fun n1 => (m2 (s.drop n1)).map (fun n2 => n1 + n2))

/-- Alternation `A|B`: left alternative preferred. -/
def mAlt (m1 m2 : Matcher) : Matcher := fun s => m1 s ++ m2 s

/-- Greedy option `A?`: presence preferred. -/
def mOpt (m : Matcher) : Matcher := mAlt m mEps

/-- ASCII upper-casing, used to model `re.IGNORECASE` on literal letters. -/
def upA (c : Char) : Char :=
  if 'a' ≤ c ∧ c ≤ 'z' then Char.ofNat (c.toNat - 32) else c

/-- A literal word under `re.IGNORECASE`: each (lowercase) letter matches
itself or its ASCII upper-case form. -/
def mStr : List Char → Matcher
  | [] => mEps
  | a :: w => mSeq (mChars [a, upA a]) (mStr w)

/-! The ten entries of `TEMPORAL_PATTERNS`, in source order. -/

/-- The date separator class `[-./]`. -/
def sepDate : Matcher := mChars ['-', '.', '/']

/-- `\d{4}[-./]\d{1,2}[-./]\d{1,2}` (YYYY-MM-DD). -/
def pat1 : Matcher :=
  mSeq (mDigits 4 4) (mSeq sepDate (mSeq (mDigits 1 2) (mSeq sepDate (mDigits 1 2))))

/-- `\d{1,2}[-./]\d{1,2}[-./]\d{2,4}` (DD-MM-YYYY or DD-MM-YY). -/
def pat2 : Matcher :=
  mSeq (mDigits 1 2) (mSeq sepDate (mSeq (mDigits 1 2) (mSeq sepDate (mDigits 2 4))))

/-- `\d{1,2}[-./]\d{1,2}` (DD.MM, day-month only). -/
def pat3 : Matcher := mSeq (mDigits 1 2) (mSeq sepDate (mDigits 1 2))

/-- The class `[wWkK]`. -/
def wkChar : Matcher := mChars ['w', 'W', 'k', 'K']

/-- The class `[wW]`. -/
def wChar : Matcher := mChars ['w', 'W']

/-- `\d{4}[-.]?[wWkK][wW]?\d{1,2}` (2025W12, 2025-W12). -/
def pat4 : Matcher :=
  mSeq (mDigits 4 4)
    (mSeq (mOpt (mChars ['-', '.'])) (mSeq wkChar (mSeq (mOpt wChar) (mDigits 1 2))))

/-- `[wWkK][wW]?\d{1,2}` (W12, KW12). -/
def pat5 : Matcher := mSeq wkChar (mSeq (mOpt wChar) (mDigits 1 2))

/-- `(?:am|pm)` under IGNORECASE. -/
def ampm : Matcher := mAlt (mStr ['a', 'm']) (mStr ['p', 'm'])

/-- `\d{1,2}:\d{2}(?:am|pm)?` (10:30, 10:30am). -/
def pat6 : Matcher :=
  mSeq (mDigits 1 2) (mSeq (mChars [':']) (mSeq (mDigits 2 2) (mOpt ampm)))

/-- `\d{1,2}(?:am|pm)` (9am, 10pm). -/
def pat7 : Matcher := mSeq (mDigits 1 2) ampm

/-- One endpoint of a time slot: `\d{1,2}(?::\d{2})?(?:am|pm)?`. -/
def timePart : Matcher :=
  mSeq (mDigits 1 2) (mSeq (mOpt (mSeq (mChars [':']) (mDigits 2 2))) (mOpt ampm))

/-- `\d{1,2}(?::\d{2})?(?:am|pm)?-\d{1,2}(?::\d{2})?(?:am|pm)?` (9:00-17:00). -/
def pat8 : Matcher := mSeq timePart (mSeq (mChars ['-']) timePart)

/-- The weekday alternation, alternatives in source order. -/
def pat9 : Matcher :=
  mAlt (mStr ['m', 'o', 'n']) (mAlt (mStr ['m', 'o', 'n', 'd', 'a', 'y'])
  (mAlt (mStr ['t', 'u', 'e']) (mAlt (mStr ['t', 'u', 'e', 's', 'd', 'a', 'y'])
  (mAlt (mStr ['w', 'e', 'd']) (mAlt (mStr ['w', 'e', 'd', 'n', 'e', 's', 'd', 'a', 'y'])
  (mAlt (mStr ['t', 'h', 'u']) (mAlt (mStr ['t', 'h', 'u', 'r', 's', 'd', 'a', 'y'])
  (mAlt (mStr ['f', 'r', 'i']) (mAlt (mStr ['f', 'r', 'i', 'd', 'a', 'y'])
  (mAlt (mStr ['s', 'a', 't']) (mAlt (mStr ['s', 'a', 't', 'u', 'r', 'd', 'a', 'y'])
  (mAlt (mStr ['s', 'u', 'n']) (mStr ['s', 'u', 'n', 'd', 'a', 'y'])))))))))))))

/-- `[YyJj]\d{4}` (Y2026, J2026); the class is case-insensitive already. -/
def pat10 : Matcher := mSeq (mChars ['Y', 'y', 'J', 'j']) (mDigits 4 4)

/-- The combined alternation of `TEMPORAL_PATTERNS`, in source order. -/
def altT : Matcher :=
  mAlt pat1 (mAlt pat2 (mAlt pat3 (mAlt pat4 (mAlt pat5 (mAlt pat6
    (mAlt pat7 (mAlt pat8 (mAlt pat9 pat10))))))))

/-- The continuation `(?:\s|$)` of `TEMPORAL_REGEX` (equally, the trailing
group `(\s|$)` of the pass-A substitution pattern) succeeds after `n`
consumed characters iff the subject ends there or a whitespace follows.
(Python's `$` also matches before a final newline, but `\s`, tried first,
already matches there, so the disjunction is equivalent to this test.) -/
def boundaryB (s : List Char) (n : Nat) : Bool :=
  match s.drop n with
  | [] => true
  | c :: _ => isSpaceB c

/-- Length of group 1 of a `TEMPORAL_REGEX` match of `s` (equally, of the
alternation group of the pass-A pattern at a position whose suffix is `s`):
the first consumable length, in backtracking preference order, whose
continuation `\s|$` also matches. `none` when the regex does not match. -/
def findTem (s : List Char) : Option Nat := (altT s).find? (fun n => boundaryB s n)

/-- `is_temporal_value` of the source: truthiness of `TEMPORAL_REGEX.match`. -/
def is_temporal_value (s : List Char) : Bool := (findTem s).isSome

/-- The change string `"!{value} -> @{value}"` recorded by pass A. -/
def exChg (v : List Char) : List Char :=
  '!' :: (v ++ (' ' :: '-' :: '>' :: ' ' :: '@' :: v))

/-- The change string `"@{value} -> #{value}"` recorded by pass B. -/
def atChg (v : List Char) : List Char :=
  '@' :: (v ++ (' ' :: '-' :: '>' :: ' ' :: '#' :: v))

/-- Pass A of `migrate_line`: `re.sub(r'!(ALT)(\s|$)', ..., line)`.

The pattern starts with the literal `!`, its alternation consumes only
word-ish characters (digits, letters, `-./:`) and its trailing group one
whitespace, so distinct matches of the pattern never overlap and no `!`
can occur inside a match; `re.sub` therefore replaces exactly the `!`
characters whose suffix matches `ALT` followed by `\s|$`, copies every
other position verbatim, and records one change per replaced `!`, left to
right.  This function performs exactly that. -/
def passA : List Char → List Char × List (List Char)
  | [] => ([], [])
  | c :: rest =>
    let tl := passA rest
    if c = '!' then
      match findTem rest with
      | some n => ('@' :: tl.1, exChg (rest.take n) :: tl.2)
      | none => (c :: tl.1, tl.2)
    else (c :: tl.1, tl.2)

/-- Characters admitted by the pass-B token class `[^\s@]`. -/
def isTokB (c : Char) : Bool := !(isSpaceB c || c == '@')

/-- Pass B of `migrate_line`: `re.finditer(r'(^|\s)@([^\s@]+)', result)`,
then, in reverse match order, each `@` whose (maximal, nonempty) token is
not temporal is replaced by `#` and a change is recorded.

A match requires the `@` to be at the line start (`bnd = true` initially)
or preceded by whitespace, and the captured token is the maximal run of
non-space non-`@` characters after it.  All matches are found on the input
string before any replacement, every replacement has the same length as
its match, and only the `@` character itself is replaced, so the rewrite
is equivalent to this single left-to-right scan in which `bnd` carries
whether the previous input character was a boundary.  Changes are returned
in scan order; `migrate_line` reverses them, as the source appends them
while processing matches right to left. -/
def passB (bnd : Bool) : List Char → List Char × List (List Char)
  | [] => ([], [])
  | c :: rest =>
    let tl := passB (isSpaceB c) rest
    let r := rest.takeWhile isTokB
    if c = '@' ∧ bnd = true ∧ r ≠ [] ∧ is_temporal_value r = false then
      ('#' :: tl.1, atChg r :: tl.2)
    else (c :: tl.1, tl.2)

/-- `migrate_line` of the source: pass A, then pass B on its output; the
change list is the pass-A changes followed by the pass-B changes in
reverse position order. -/
def migrate_line (line : List Char) : List Char × List (List Char) :=
  let a := passA line
  let b := passB true a.1
  (b.1, a.2 ++ b.2.reverse)

/-- Python's `content.split('\n')`. -/
def splitNL : List Char → List (List Char)
  | [] => [[]]
  | c :: rest =>
    if c = '\n' then [] :: splitNL rest
    else
      match splitNL rest with
      | [] => [[c]]
      | l :: ls => (c :: l) :: ls

/-- Python's `'\n'.join(lines)`. -/
def joinNL : List (List Char) → List Char
  | [] => []
  | [l] => l
  | l :: ls => l ++ '\n' :: joinNL ls

/-- The tag put before a change by `migrate_content`: `Line `, then the
1-based line number, then `: ` (`i` is the 0-based line index). -/
def lineTag (i : Nat) (chg : List Char) : List Char :=
  ('L' :: 'i' :: 'n' :: 'e' :: ' ' :: []) ++ Nat.toDigits 10 (i + 1) ++ (':' :: ' ' :: chg)

/-- `migrate_content` of the source: split on `'\n'`, migrate each line,
re-join with `'\n'`, and tag every change with its 1-based line number. -/
def migrate_content (content : List Char) : List Char × List (List Char) :=
  let lines := splitNL content
  (joinNL (lines.map (fun l => (migrate_line l).1)),
   (lines.enum).flatMap (fun p => ((migrate_line p.2).2).map (fun chg => lineTag p.1 chg)))

/-! ### Concrete evaluation facts for the claims -/

/-- Claim C4: `migrate_line` applied to the exact line
`Meeting with @john !W12` returns `Meeting with #john @W12` with exactly
the change descriptions `!W12 -> @W12` and `@john -> #john`, in that
order. -/
theorem C4_concrete_scenario :
    migrate_line ("Meeting with @john !W12".data) =
      ("Meeting with #john @W12".data,
        ["!W12 -> @W12".data, "@john -> #john".data]) := by
  decide

/-- Claim C3, counterexample: for the token `t = x!W12` (non-temporal, no
whitespace, no `@`) on the line `@x!W12`, the claim asserts the output
`#x!W12` with the token text unchanged; the code instead first rewrites
the `!W12` inside the token (pass A has no left boundary), producing
`#x@W12`. -/
theorem C3_counterexample :
    is_temporal_value ("x!W12".data) = false ∧
      migrate_line ("@x!W12".data) =
        ("#x@W12".data, ["!W12 -> @W12".data, "@x -> #x".data]) ∧
      ('#' :: "x!W12".data) ≠ "#x@W12".data := by
  refine ⟨by decide, by decide, by decide⟩

/-- Claim C5, counterexample: in the line `x!W12` the only `!` is
immediately preceded by the non-whitespace character `x`, yet
`migrate_line` rewrites it: the pass-A pattern `!(...)(\s|$)` has no
left-boundary requirement. -/
theorem C5_counterexample :
    migrate_line ("x!W12".data) = ("x@W12".data, ["!W12 -> @W12".data]) ∧
      "x@W12".data ≠ "x!W12".data := by
  refine ⟨by decide, by decide⟩

/-- Claim C6, counterexample: the token `01-02-123`, whose trailing year
field has exactly 3 digits, IS classified temporal (the source regex
accepts `\d{2,4}`, hence 2-, 3- and 4-digit trailing fields), contrary to
the claim that the date rule accepts exactly 2- or 4-digit years. -/
theorem C6_counterexample : is_temporal_value ("01-02-123".data) = true := by
  decide

/-- Claim C7, counterexample: the bare one-digit hour token `9` is NOT
classified temporal (every time rule requires `:MM` minutes or an `am`/`pm`
suffix), contrary to the claim that `isTemporal` accepts a bare hour. -/
theorem C7_counterexample : is_temporal_value ("9".data) = false := by
  decide

/-! ### Membership lemmas for matchers -/

theorem mSeq_mem {m1 m2 : Matcher} {s : List Char} {n1 n2 : Nat}
    (h1 : n1 ∈ m1 s) (h2 : n2 ∈ m2 (s.drop n1)) : n1 + n2 ∈ mSeq m1 m2 s := by
  simp only [mSeq, List.mem_flatMap, List.mem_map]
  exact ⟨n1, h1, n2, h2, rfl⟩

theorem mAlt_mem_left {m1 m2 : Matcher} {s : List Char} {n : Nat}
    (h : n ∈ m1 s) : n ∈ mAlt m1 m2 s :=
  List.mem_append.mpr (Or.inl h)

theorem mAlt_mem_right {m1 m2 : Matcher} {s : List Char} {n : Nat}
    (h : n ∈ m2 s) : n ∈ mAlt m1 m2 s :=
  List.mem_append.mpr (Or.inr h)

theorem mChars_mem {cs : List Char} {c : Char} {r : List Char}
    (h : c ∈ cs) : 1 ∈ mChars cs (c :: r) := by
  simp [mChars, h]

theorem mEps_mem (s : List Char) : 0 ∈ mEps s := by
  simp [mEps]

theorem mOpt_mem_zero {m : Matcher} (s : List Char) : 0 ∈ mOpt m s :=
  mAlt_mem_right (mEps_mem s)

theorem mOpt_mem {m : Matcher} {s : List Char} {n : Nat} (h : n ∈ m s) :
    n ∈ mOpt m s :=
  mAlt_mem_left h

theorem countLead_ge {cs d r : List Char} (hd : ∀ c ∈ d, c ∈ cs) :
    d.length ≤ countLead cs (d ++ r) := by
  induction d with
  | nil => simp
  | cons c d ih =>
    have hc : c ∈ cs := hd c (by simp)
    have ih' := ih (fun x hx => hd x (by simp [hx]))
    simp only [List.cons_append, countLead, if_pos hc, List.length_cons, List.append_eq]
    simp only [List.append_eq] at ih'
    omega

theorem mRep_mem {cs : List Char} {lo hi : Nat} {s : List Char} {n : Nat}
    (h1 : lo ≤ n) (h2 : n ≤ hi) (h3 : n ≤ countLead cs s) :
    n ∈ mRep cs lo hi s := by
  have hr : n ≤ min hi (countLead cs s) := le_min h2 h3
  simp only [mRep, descRange, List.mem_reverse, List.mem_range'_1]
  omega

theorem mStr_self : ∀ (w r : List Char), w.length ∈ mStr w (w ++ r)
  | [], r => mEps_mem r
  | a :: w, r => by
    have h1 : 1 ∈ mChars [a, upA a] ((a :: w) ++ r) := mChars_mem (by simp)
    have h2 : w.length ∈ mStr w (((a :: w) ++ r).drop 1) := mStr_self w r
    have h3 := @mSeq_mem (mChars [a, upA a]) (mStr w) ((a :: w) ++ r) 1 w.length h1 h2
    simpa [mStr, Nat.add_comm] using h3

/-! ### Nothing temporal consists of digits alone -/

theorem flatMap_nil_of {α β : Type} {l : List α} {f : α → List β}
    (h : ∀ x ∈ l, f x = []) : l.flatMap f = [] := by
  induction l with
  | nil => rfl
  | cons a l ih =>
    simp only [List.flatMap_cons, h a (by simp), List.nil_append]
    exact ih (fun x hx => h x (by simp [hx]))

theorem mSeq_nil_right {m1 m2 : Matcher} {s : List Char}
    (h : ∀ n ∈ m1 s, m2 (s.drop n) = []) : mSeq m1 m2 s = [] := by
  simp only [mSeq]
  exact flatMap_nil_of (fun n hn => by rw [h n hn]; rfl)

theorem mSeq_nil_left {m1 m2 : Matcher} {s : List Char}
    (h : m1 s = []) : mSeq m1 m2 s = [] := by
  simp only [mSeq, h]; rfl

theorem mAlt_nil {m1 m2 : Matcher} {s : List Char}
    (h1 : m1 s = []) (h2 : m2 s = []) : mAlt m1 m2 s = [] := by
  simp only [mAlt, h1, h2]; rfl

theorem mChars_nil_of_digits {cs : List Char} {s : List Char}
    (hcs : ∀ c ∈ digitChars, c ∉ cs) (hs : ∀ c ∈ s, c ∈ digitChars) :
    mChars cs s = [] := by
  cases s with
  | nil => rfl
  | cons c r =>
    have : c ∉ cs := hcs c (hs c (by simp))
    simp [mChars, this]

theorem digits_drop {s : List Char} (hs : ∀ c ∈ s, c ∈ digitChars) (n : Nat) :
    ∀ c ∈ s.drop n, c ∈ digitChars :=
  fun c hc => hs c (List.drop_subset n s hc)

theorem mStr_nil_of_digits {a : Char} {w s : List Char}
    (ha : ∀ c ∈ digitChars, c ∉ [a, upA a]) (hs : ∀ c ∈ s, c ∈ digitChars) :
    mStr (a :: w) s = [] := by
  simp only [mStr]
  exact mSeq_nil_left (mChars_nil_of_digits ha hs)

theorem ampm_nil_of_digits {s : List Char} (hs : ∀ c ∈ s, c ∈ digitChars) :
    ampm s = [] := by
  have ha : mStr ['a', 'm'] s = [] := mStr_nil_of_digits (by decide) hs
  have hp : mStr ['p', 'm'] s = [] := mStr_nil_of_digits (by decide) hs
  exact mAlt_nil ha hp

theorem altT_nil_of_digits {s : List Char} (hs : ∀ c ∈ s, c ∈ digitChars) :
    altT s = [] := by
  have hsepc : ∀ c ∈ digitChars, c ∉ ['-', '.', '/'] := by decide
  have hdashdotc : ∀ c ∈ digitChars, c ∉ ['-', '.'] := by decide
  have hcolonc : ∀ c ∈ digitChars, c ∉ [':'] := by decide
  have hdashc : ∀ c ∈ digitChars, c ∉ ['-'] := by decide
  have hwkc : ∀ c ∈ digitChars, c ∉ ['w', 'W', 'k', 'K'] := by decide
  have hyjc : ∀ c ∈ digitChars, c ∉ ['Y', 'y', 'J', 'j'] := by decide
  have hsep : ∀ t : List Char, (∀ c ∈ t, c ∈ digitChars) →
      ∀ m2 : Matcher, mSeq sepDate m2 t = [] :=
    fun t ht m2 => mSeq_nil_left (mChars_nil_of_digits hsepc ht)
  have hcolon : ∀ t : List Char, (∀ c ∈ t, c ∈ digitChars) →
      ∀ m2 : Matcher, mSeq (mChars [':']) m2 t = [] :=
    fun t ht m2 => mSeq_nil_left (mChars_nil_of_digits hcolonc ht)
  have hdash : ∀ t : List Char, (∀ c ∈ t, c ∈ digitChars) →
      ∀ m2 : Matcher, mSeq (mChars ['-']) m2 t = [] :=
    fun t ht m2 => mSeq_nil_left (mChars_nil_of_digits hdashc ht)
  have hwk : ∀ t : List Char, (∀ c ∈ t, c ∈ digitChars) →
      ∀ m2 : Matcher, mSeq wkChar m2 t = [] :=
    fun t ht m2 => mSeq_nil_left (mChars_nil_of_digits hwkc ht)
  have h1 : pat1 s = [] :=
    mSeq_nil_right (fun n _ => hsep _ (digits_drop hs n) _)
  have h2 : pat2 s = [] :=
    mSeq_nil_right (fun n _ => hsep _ (digits_drop hs n) _)
  have h3 : pat3 s = [] :=
    mSeq_nil_right (fun n _ => hsep _ (digits_drop hs n) _)
  have h4 : pat4 s = [] := by
    refine mSeq_nil_right (fun n _ => ?_)
    refine mSeq_nil_right (fun k hk => ?_)
    have hcn : mChars ['-', '.'] (s.drop n) = [] :=
      mChars_nil_of_digits hdashdotc (digits_drop hs n)
    have hopt : mOpt (mChars ['-', '.']) (s.drop n) = [0] := by
      simp only [mOpt, mAlt, hcn, mEps, List.nil_append]
    rw [hopt] at hk
    simp only [List.mem_singleton] at hk
    subst hk
    exact hwk _ (digits_drop (digits_drop hs n) 0) _
  have h5 : pat5 s = [] := hwk _ hs _
  have h6 : pat6 s = [] :=
    mSeq_nil_right (fun n _ => hcolon _ (digits_drop hs n) _)
  have h7 : pat7 s = [] :=
    mSeq_nil_right (fun n _ => ampm_nil_of_digits (digits_drop hs n))
  have h8 : pat8 s = [] := by
    refine mSeq_nil_right (fun n _ => ?_)
    exact hdash _ (digits_drop hs n) _
  have h9 : pat9 s = [] := by
    have hm : ∀ c ∈ digitChars, c ∉ ['m', upA 'm'] := by decide
    have ht : ∀ c ∈ digitChars, c ∉ ['t', upA 't'] := by decide
    have hw : ∀ c ∈ digitChars, c ∉ ['w', upA 'w'] := by decide
    have hf : ∀ c ∈ digitChars, c ∉ ['f', upA 'f'] := by decide
    have hsn : ∀ c ∈ digitChars, c ∉ ['s', upA 's'] := by decide
    exact mAlt_nil (mStr_nil_of_digits hm hs) (mAlt_nil (mStr_nil_of_digits hm hs)
      (mAlt_nil (mStr_nil_of_digits ht hs) (mAlt_nil (mStr_nil_of_digits ht hs)
      (mAlt_nil (mStr_nil_of_digits hw hs) (mAlt_nil (mStr_nil_of_digits hw hs)
      (mAlt_nil (mStr_nil_of_digits ht hs) (mAlt_nil (mStr_nil_of_digits ht hs)
      (mAlt_nil (mStr_nil_of_digits hf hs) (mAlt_nil (mStr_nil_of_digits hf hs)
      (mAlt_nil (mStr_nil_of_digits hsn hs) (mAlt_nil (mStr_nil_of_digits hsn hs)
      (mAlt_nil (mStr_nil_of_digits hsn hs) (mStr_nil_of_digits hsn hs)))))))))))))
  have h10 : pat10 s = [] :=
    mSeq_nil_left (mChars_nil_of_digits hyjc hs)
  exact mAlt_nil h1 (mAlt_nil h2 (mAlt_nil h3 (mAlt_nil h4 (mAlt_nil h5
    (mAlt_nil h6 (mAlt_nil h7 (mAlt_nil h8 (mAlt_nil h9 h10))))))))

/-- An all-digit token is never temporal: no pattern can match it at all. -/
theorem digits_not_temporal {s : List Char} (hs : ∀ c ∈ s, c ∈ digitChars) :
    is_temporal_value s = false := by
  simp only [is_temporal_value, findTem, altT_nil_of_digits hs, List.find?_nil,
    Option.isSome_none]

/-- A full-length pattern match makes a token temporal (the continuation
`\s|$` holds at the end of the string). -/
theorem temporal_of_full_match {s : List Char} {n : Nat}
    (hm : n ∈ altT s) (hn : s.length ≤ n) : is_temporal_value s = true := by
  have hd : s.drop n = [] := List.drop_eq_nil_of_le hn
  have hb : boundaryB s n = true := by simp [boundaryB, hd]
  have hsome : (findTem s).isSome := List.find?_isSome.mpr ⟨n, hm, hb⟩
  simpa [is_temporal_value] using hsome

theorem countLead_digits_self {d : List Char} (hd : ∀ c ∈ d, c ∈ digitChars) :
    d.length ≤ countLead digitChars d := by
  have h := countLead_ge (r := []) hd
  simpa using h

/-- Claim C6, amended: the day-first numeric date rule uses `\d{2,4}` for
the trailing year field, so it accepts 2-, 3- and 4-digit years: every
token `D sep M sep Y` with 1-2 digit day, 1-2 digit month, 2-, 3- or
4-digit year and separators among `-`, `.`, `/` is classified temporal
(in particular `01-02-123`, which the original claim excluded, is
temporal). -/
theorem C6_amended_day_first_year_widths
    (d m y : List Char) (a b : Char)
    (hd : ∀ c ∈ d, c ∈ digitChars) (hd1 : 1 ≤ d.length) (hd2 : d.length ≤ 2)
    (hm : ∀ c ∈ m, c ∈ digitChars) (hm1 : 1 ≤ m.length) (hm2 : m.length ≤ 2)
    (hy : ∀ c ∈ y, c ∈ digitChars) (hy1 : 2 ≤ y.length) (hy2 : y.length ≤ 4)
    (ha : a ∈ ['-', '.', '/']) (hb : b ∈ ['-', '.', '/']) :
    is_temporal_value (d ++ a :: (m ++ b :: y)) = true := by
  have my : y.length ∈ mDigits 2 4 y :=
    mRep_mem hy1 hy2 (countLead_digits_self hy)
  have msb : 1 ∈ sepDate (b :: y) := mChars_mem hb
  have mt2 : 1 + y.length ∈ mSeq sepDate (mDigits 2 4) (b :: y) :=
    mSeq_mem msb my
  have mm : m.length ∈ mDigits 1 2 (m ++ b :: y) :=
    mRep_mem hm1 hm2 (countLead_ge hm)
  have mt3 : m.length + (1 + y.length) ∈
      mSeq (mDigits 1 2) (mSeq sepDate (mDigits 2 4)) (m ++ b :: y) := by
    refine mSeq_mem mm ?_
    rw [List.drop_left]
    exact mt2
  have msa : 1 ∈ sepDate (a :: (m ++ b :: y)) := mChars_mem ha
  have mt4 : 1 + (m.length + (1 + y.length)) ∈
      mSeq sepDate (mSeq (mDigits 1 2) (mSeq sepDate (mDigits 2 4)))
        (a :: (m ++ b :: y)) :=
    mSeq_mem msa mt3
  have mdd : d.length ∈ mDigits 1 2 (d ++ a :: (m ++ b :: y)) :=
    mRep_mem hd1 hd2 (countLead_ge hd)
  have mp2 : d.length + (1 + (m.length + (1 + y.length))) ∈
      pat2 (d ++ a :: (m ++ b :: y)) := by
    refine mSeq_mem mdd ?_
    rw [List.drop_left]
    exact mt4
  have malt : d.length + (1 + (m.length + (1 + y.length))) ∈
      altT (d ++ a :: (m ++ b :: y)) :=
    mAlt_mem_right (mAlt_mem_left mp2)
  refine temporal_of_full_match malt ?_
  simp only [List.length_append, List.length_cons, List.length_nil]
  omega

/-- Witness for C6: the instance `01-02-123` (3-digit year field). -/
theorem C6_amended_witness :
    is_temporal_value (['0', '1'] ++ '-' :: (['0', '2'] ++ '-' :: ['1', '2', '3'])) = true :=
  C6_amended_day_first_year_widths ['0', '1'] ['0', '2'] ['1', '2', '3'] '-' '-'
    (by decide) (by decide) (by decide) (by decide) (by decide) (by decide)
    (by decide) (by decide) (by decide) (by decide) (by decide)

/-- Claim C7, amended: the time rules accept `H:MM`, `H:MMam`, `H:MMpm`,
`Ham` and `Hpm` for a 1-2 digit hour `H` and a 2-digit minute field `MM`,
but a bare hour token with neither minutes nor an `am`/`pm` suffix (such
as `9`) is NOT classified temporal: no pattern matches an all-digit
token. -/
theorem C7_amended_time_rule
    (u v : List Char)
    (hu : ∀ c ∈ u, c ∈ digitChars) (hu1 : 1 ≤ u.length) (hu2 : u.length ≤ 2)
    (hv : ∀ c ∈ v, c ∈ digitChars) (hvl : v.length = 2) :
    is_temporal_value (u ++ ':' :: v) = true ∧
      is_temporal_value (u ++ ':' :: (v ++ ['a', 'm'])) = true ∧
      is_temporal_value (u ++ ':' :: (v ++ ['p', 'm'])) = true ∧
      is_temporal_value (u ++ ['a', 'm']) = true ∧
      is_temporal_value (u ++ ['p', 'm']) = true ∧
      is_temporal_value u = false := by
  have hu' : ∀ r : List Char, u.length ∈ mDigits 1 2 (u ++ r) :=
    fun r => mRep_mem hu1 hu2 (countLead_ge hu)
  have hcolon : ∀ r : List Char, 1 ∈ mChars [':'] (':' :: r) :=
    fun r => mChars_mem (by simp)
  have hv' : ∀ r : List Char, v.length ∈ mDigits 2 2 (v ++ r) :=
    fun r => mRep_mem (by omega) (by omega) (countLead_ge hv)
  have ham : ∀ w r : List Char, w = ['a', 'm'] ∨ w = ['p', 'm'] →
      w.length ∈ ampm (w ++ r) := by
    rintro w r (rfl | rfl)
    · exact mAlt_mem_left (mStr_self ['a', 'm'] r)
    · exact mAlt_mem_right (mStr_self ['p', 'm'] r)
  refine ⟨?_, ?_, ?_, ?_, ?_, digits_not_temporal hu⟩
  · -- H:MM via pat6
    have hm6 : u.length + (1 + (v.length + 0)) ∈ pat6 (u ++ ':' :: v) := by
      refine mSeq_mem (hu' (':' :: v)) ?_
      rw [List.drop_left]
      refine mSeq_mem (hcolon v) ?_
      have hvv : v.length ∈ mDigits 2 2 v := by
        have h0 := hv' []
        rwa [List.append_nil] at h0
      exact mSeq_mem hvv (mOpt_mem_zero _)
    have malt : u.length + (1 + (v.length + 0)) ∈ altT (u ++ ':' :: v) :=
      mAlt_mem_right (mAlt_mem_right (mAlt_mem_right (mAlt_mem_right
        (mAlt_mem_right (mAlt_mem_left hm6)))))
    refine temporal_of_full_match malt ?_
    simp only [List.length_append, List.length_cons, List.length_nil]
    omega
  · -- H:MMam via pat6
    have hm6 : u.length + (1 + (v.length + 2)) ∈ pat6 (u ++ ':' :: (v ++ ['a', 'm'])) := by
      refine mSeq_mem (hu' (':' :: (v ++ ['a', 'm']))) ?_
      rw [List.drop_left]
      refine mSeq_mem (hcolon (v ++ ['a', 'm'])) ?_
      refine mSeq_mem (hv' ['a', 'm']) ?_
      rw [show List.drop 1 (':' :: (v ++ ['a', 'm'])) = v ++ ['a', 'm'] from rfl,
        List.drop_left]
      have h2 := ham ['a', 'm'] [] (Or.inl rfl)
      rw [List.append_nil] at h2
      exact mOpt_mem h2
    have malt : u.length + (1 + (v.length + 2)) ∈ altT (u ++ ':' :: (v ++ ['a', 'm'])) :=
      mAlt_mem_right (mAlt_mem_right (mAlt_mem_right (mAlt_mem_right
        (mAlt_mem_right (mAlt_mem_left hm6)))))
    refine temporal_of_full_match malt ?_
    simp only [List.length_append, List.length_cons, List.length_nil]
    omega
  · -- H:MMpm via pat6
    have hm6 : u.length + (1 + (v.length + 2)) ∈ pat6 (u ++ ':' :: (v ++ ['p', 'm'])) := by
      refine mSeq_mem (hu' (':' :: (v ++ ['p', 'm']))) ?_
      rw [List.drop_left]
      refine mSeq_mem (hcolon (v ++ ['p', 'm'])) ?_
      refine mSeq_mem (hv' ['p', 'm']) ?_
      rw [show List.drop 1 (':' :: (v ++ ['p', 'm'])) = v ++ ['p', 'm'] from rfl,
        List.drop_left]
      have h2 := ham ['p', 'm'] [] (Or.inr rfl)
      rw [List.append_nil] at h2
      exact mOpt_mem h2
    have malt : u.length + (1 + (v.length + 2)) ∈ altT (u ++ ':' :: (v ++ ['p', 'm'])) :=
      mAlt_mem_right (mAlt_mem_right (mAlt_mem_right (mAlt_mem_right
        (mAlt_mem_right (mAlt_mem_left hm6)))))
    refine temporal_of_full_match malt ?_
    simp only [List.length_append, List.length_cons, List.length_nil]
    omega
  · -- Ham via pat7
    have hm7 : u.length + 2 ∈ pat7 (u ++ ['a', 'm']) := by
      refine mSeq_mem (hu' ['a', 'm']) ?_
      rw [List.drop_left]
      have h2 := ham ['a', 'm'] [] (Or.inl rfl)
      rwa [List.append_nil] at h2
    have malt : u.length + 2 ∈ altT (u ++ ['a', 'm']) :=
      mAlt_mem_right (mAlt_mem_right (mAlt_mem_right (mAlt_mem_right
        (mAlt_mem_right (mAlt_mem_right (mAlt_mem_left hm7))))))
    refine temporal_of_full_match malt ?_
    simp only [List.length_append, List.length_cons, List.length_nil]
    omega
  · -- Hpm via pat7
    have hm7 : u.length + 2 ∈ pat7 (u ++ ['p', 'm']) := by
      refine mSeq_mem (hu' ['p', 'm']) ?_
      rw [List.drop_left]
      have h2 := ham ['p', 'm'] [] (Or.inr rfl)
      rwa [List.append_nil] at h2
    have malt : u.length + 2 ∈ altT (u ++ ['p', 'm']) :=
      mAlt_mem_right (mAlt_mem_right (mAlt_mem_right (mAlt_mem_right
        (mAlt_mem_right (mAlt_mem_right (mAlt_mem_left hm7))))))
    refine temporal_of_full_match malt ?_
    simp only [List.length_append, List.length_cons, List.length_nil]
    omega

/-- Witness for C7: hour 9 with minutes 30. -/
theorem C7_amended_witness :
    is_temporal_value (['9'] ++ ':' :: ['3', '0']) = true ∧
      is_temporal_value (['9'] ++ ['a', 'm']) = true ∧
      is_temporal_value ['9'] = false := by
  have h := C7_amended_time_rule ['9'] ['3', '0']
    (by decide) (by decide) (by decide) (by decide) (by decide)
  exact ⟨h.1, h.2.2.2.1, h.2.2.2.2.2⟩

/-! ### Pointwise effect of the two passes -/

/-- Pass A rewrites a character only from `!` to `@`. -/
def RelA (a b : Char) : Prop := b = a ∨ (a = '!' ∧ b = '@')

/-- Pass B rewrites a character only from `@` to `#`. -/
def RelB (a b : Char) : Prop := b = a ∨ (a = '@' ∧ b = '#')

/-- The marker characters, the only ones the migration ever rewrites. -/
def tagChar (c : Char) : Prop := c = '!' ∨ c = '@' ∨ c = '#'

/-- Characters are compatible when equal or both markers.  No character
class of the temporal patterns contains a marker or a whitespace, so all
matching is invariant under this relation. -/
def ccChar (a b : Char) : Prop := a = b ∨ (tagChar a ∧ tagChar b)

/-- Strings are compatible when pointwise compatible. -/
def Compat (s t : List Char) : Prop := List.Forall₂ ccChar s t

theorem relA_cc {a b : Char} (h : RelA a b) : ccChar a b := by
  rcases h with rfl | ⟨rfl, rfl⟩
  · exact Or.inl rfl
  · exact Or.inr ⟨Or.inl rfl, Or.inr (Or.inl rfl)⟩

theorem relB_cc {a b : Char} (h : RelB a b) : ccChar a b := by
  rcases h with rfl | ⟨rfl, rfl⟩
  · exact Or.inl rfl
  · exact Or.inr ⟨Or.inr (Or.inl rfl), Or.inr (Or.inr rfl)⟩

theorem tagChar_not_space {c : Char} (h : tagChar c) : isSpaceB c = false := by
  rcases h with rfl | rfl | rfl <;> decide

theorem ccChar_space {a b : Char} (h : ccChar a b) : isSpaceB a = isSpaceB b := by
  rcases h with rfl | ⟨ha, hb⟩
  · rfl
  · rw [tagChar_not_space ha, tagChar_not_space hb]

/-- A character class free of markers. -/
abbrev noTags (cs : List Char) : Prop := '!' ∉ cs ∧ '@' ∉ cs ∧ '#' ∉ cs

theorem ccChar_mem {cs : List Char} (hcs : noTags cs) {a b : Char}
    (h : ccChar a b) : (a ∈ cs) ↔ (b ∈ cs) := by
  rcases h with rfl | ⟨ha, hb⟩
  · exact Iff.rfl
  · constructor <;> intro hmem
    · rcases ha with rfl | rfl | rfl
      · exact absurd hmem hcs.1
      · exact absurd hmem hcs.2.1
      · exact absurd hmem hcs.2.2
    · rcases hb with rfl | rfl | rfl
      · exact absurd hmem hcs.1
      · exact absurd hmem hcs.2.1
      · exact absurd hmem hcs.2.2

theorem compat_drop (n : Nat) {s t : List Char} (h : Compat s t) :
    Compat (s.drop n) (t.drop n) := by
  induction n generalizing s t with
  | zero => exact h
  | succ n ih =>
    cases h with
    | nil => exact List.Forall₂.nil
    | cons hab htl => exact ih htl

/-- Invariance of a matcher under compatibility. -/
def MinvC (m : Matcher) : Prop := ∀ {s t : List Char}, Compat s t → m s = m t

theorem flatMap_congr_fun {α β : Type} {l : List α} {f g : α → List β}
    (h : ∀ x ∈ l, f x = g x) : l.flatMap f = l.flatMap g := by
  induction l with
  | nil => rfl
  | cons a l ih =>
    simp only [List.flatMap_cons, h a (by simp)]
    rw [ih (fun x hx => h x (by simp [hx]))]

theorem find?_congr_fun {α : Type} {l : List α} {p q : α → Bool}
    (h : ∀ x ∈ l, p x = q x) : l.find? p = l.find? q := by
  induction l with
  | nil => rfl
  | cons a l ih =>
    simp only [List.find?_cons, h a (by simp)]
    rw [ih (fun x hx => h x (by simp [hx]))]

theorem minv_eps : MinvC mEps := fun _ => rfl

theorem minv_chars {cs : List Char} (hcs : noTags cs) : MinvC (mChars cs) := by
  intro s t h
  cases h with
  | nil => rfl
  | @cons a b l₁ l₂ hab htl =>
    simp only [mChars]
    by_cases hmem : a ∈ cs
    · rw [if_pos hmem, if_pos ((ccChar_mem hcs hab).mp hmem)]
    · rw [if_neg hmem, if_neg (fun hx => hmem ((ccChar_mem hcs hab).mpr hx))]

theorem countLead_compat {cs : List Char} (hcs : noTags cs) {s t : List Char}
    (h : Compat s t) : countLead cs s = countLead cs t := by
  induction h with
  | nil => rfl
  | @cons a b l₁ l₂ hab htl ih =>
    simp only [countLead]
    by_cases hmem : a ∈ cs
    · rw [if_pos hmem, if_pos ((ccChar_mem hcs hab).mp hmem), ih]
    · rw [if_neg hmem, if_neg (fun hx => hmem ((ccChar_mem hcs hab).mpr hx))]

theorem minv_rep {cs : List Char} (hcs : noTags cs) (lo hi : Nat) :
    MinvC (mRep cs lo hi) := by
  intro s t h
  simp only [mRep, countLead_compat hcs h]

theorem minv_seq {m1 m2 : Matcher} (h1 : MinvC m1) (h2 : MinvC m2) :
    MinvC (mSeq m1 m2) := by
  intro s t h
  simp only [mSeq, h1 h]
  exact flatMap_congr_fun (fun n _ => by rw [h2 (compat_drop n h)])

theorem minv_alt {m1 m2 : Matcher} (h1 : MinvC m1) (h2 : MinvC m2) :
    MinvC (mAlt m1 m2) := by
  intro s t h
  simp only [mAlt, h1 h, h2 h]

theorem minv_opt {m : Matcher} (h : MinvC m) : MinvC (mOpt m) :=
  minv_alt h minv_eps

theorem minv_str {w : List Char} (hw : ∀ a ∈ w, noTags [a, upA a]) :
    MinvC (mStr w) := by
  induction w with
  | nil => exact minv_eps
  | cons a w ih =>
    exact minv_seq (minv_chars (hw a (by simp)))
      (ih (fun x hx => hw x (by simp [hx])))

theorem minv_digits (lo hi : Nat) : MinvC (mDigits lo hi) :=
  minv_rep (by decide) lo hi

theorem altT_compat : MinvC altT := by
  have hsep : MinvC sepDate := minv_chars (by decide)
  have hwk : MinvC wkChar := minv_chars (by decide)
  have hw : MinvC wChar := minv_chars (by decide)
  have hcolon : MinvC (mChars [':']) := minv_chars (by decide)
  have hdash : MinvC (mChars ['-']) := minv_chars (by decide)
  have hdashdot : MinvC (mChars ['-', '.']) := minv_chars (by decide)
  have hyj : MinvC (mChars ['Y', 'y', 'J', 'j']) := minv_chars (by decide)
  have hampm : MinvC ampm :=
    minv_alt (minv_str (by decide)) (minv_str (by decide))
  have h1 : MinvC pat1 :=
    minv_seq (minv_digits 4 4) (minv_seq hsep (minv_seq (minv_digits 1 2)
      (minv_seq hsep (minv_digits 1 2))))
  have h2 : MinvC pat2 :=
    minv_seq (minv_digits 1 2) (minv_seq hsep (minv_seq (minv_digits 1 2)
      (minv_seq hsep (minv_digits 2 4))))
  have h3 : MinvC pat3 :=
    minv_seq (minv_digits 1 2) (minv_seq hsep (minv_digits 1 2))
  have h4 : MinvC pat4 :=
    minv_seq (minv_digits 4 4) (minv_seq (minv_opt hdashdot)
      (minv_seq hwk (minv_seq (minv_opt hw) (minv_digits 1 2))))
  have h5 : MinvC pat5 :=
    minv_seq hwk (minv_seq (minv_opt hw) (minv_digits 1 2))
  have h6 : MinvC pat6 :=
    minv_seq (minv_digits 1 2) (minv_seq hcolon
      (minv_seq (minv_digits 2 2) (minv_opt hampm)))
  have h7 : MinvC pat7 := minv_seq (minv_digits 1 2) hampm
  have htp : MinvC timePart :=
    minv_seq (minv_digits 1 2) (minv_seq (minv_opt (minv_seq hcolon
      (minv_digits 2 2))) (minv_opt hampm))
  have h8 : MinvC pat8 := minv_seq htp (minv_seq hdash htp)
  have h9 : MinvC pat9 :=
    minv_alt (minv_str (by decide)) (minv_alt (minv_str (by decide))
    (minv_alt (minv_str (by decide)) (minv_alt (minv_str (by decide))
    (minv_alt (minv_str (by decide)) (minv_alt (minv_str (by decide))
    (minv_alt (minv_str (by decide)) (minv_alt (minv_str (by decide))
    (minv_alt (minv_str (by decide)) (minv_alt (minv_str (by decide))
    (minv_alt (minv_str (by decide)) (minv_alt (minv_str (by decide))
    (minv_alt (minv_str (by decide)) (minv_str (by decide))))))))))))))
  have h10 : MinvC pat10 := minv_seq hyj (minv_digits 4 4)
  intro s t hst
  exact minv_alt h1 (minv_alt h2 (minv_alt h3 (minv_alt h4 (minv_alt h5
    (minv_alt h6 (minv_alt h7 (minv_alt h8 (minv_alt h9 h10)))))))) hst

theorem boundaryB_compat {s t : List Char} (h : Compat s t) (n : Nat) :
    boundaryB s n = boundaryB t n := by
  have hd : Compat (s.drop n) (t.drop n) := compat_drop n h
  unfold boundaryB
  generalize s.drop n = x at hd ⊢
  generalize t.drop n = y at hd ⊢
  cases hd with
  | nil => rfl
  | @cons a b l₁ l₂ hab htl => simpa using ccChar_space hab

theorem findTem_compat {s t : List Char} (h : Compat s t) :
    findTem s = findTem t := by
  unfold findTem
  rw [altT_compat h]
  exact find?_congr_fun (fun n _ => boundaryB_compat h n)

/-! ### Structure of the pass outputs -/

theorem passA_cons (c : Char) (rest : List Char) :
    passA (c :: rest) =
      if c = '!' then
        match findTem rest with
        | some n => ('@' :: (passA rest).1, exChg (rest.take n) :: (passA rest).2)
        | none => (c :: (passA rest).1, (passA rest).2)
      else (c :: (passA rest).1, (passA rest).2) := rfl

theorem passA_cons_excl_some {rest : List Char} {n : Nat}
    (hfind : findTem rest = some n) :
    passA ('!' :: rest) =
      ('@' :: (passA rest).1, exChg (rest.take n) :: (passA rest).2) := by
  rw [passA_cons, if_pos rfl, hfind]

theorem passA_cons_excl_none {rest : List Char} (hfind : findTem rest = none) :
    passA ('!' :: rest) = ('!' :: (passA rest).1, (passA rest).2) := by
  rw [passA_cons, if_pos rfl, hfind]

theorem passA_cons_other {c : Char} (rest : List Char) (hc : c ≠ '!') :
    passA (c :: rest) = (c :: (passA rest).1, (passA rest).2) := by
  rw [passA_cons, if_neg hc]

/-- The rewrite condition of pass B at one scan position. -/
def pbCond (c : Char) (bnd : Bool) (rest : List Char) : Prop :=
  c = '@' ∧ bnd = true ∧ rest.takeWhile isTokB ≠ [] ∧
    is_temporal_value (rest.takeWhile isTokB) = false

instance (c : Char) (bnd : Bool) (rest : List Char) : Decidable (pbCond c bnd rest) := by
  unfold pbCond; infer_instance

theorem passB_cons (bnd : Bool) (c : Char) (rest : List Char) :
    passB bnd (c :: rest) =
      if pbCond c bnd rest then
        ('#' :: (passB (isSpaceB c) rest).1,
          atChg (rest.takeWhile isTokB) :: (passB (isSpaceB c) rest).2)
      else (c :: (passB (isSpaceB c) rest).1, (passB (isSpaceB c) rest).2) := by
  show (if c = '@' ∧ bnd = true ∧ rest.takeWhile isTokB ≠ [] ∧
      is_temporal_value (rest.takeWhile isTokB) = false then _ else _) = _
  rfl

theorem passB_cons_pos {bnd : Bool} {c : Char} {rest : List Char}
    (h : pbCond c bnd rest) :
    passB bnd (c :: rest) =
      ('#' :: (passB (isSpaceB c) rest).1,
        atChg (rest.takeWhile isTokB) :: (passB (isSpaceB c) rest).2) := by
  rw [passB_cons, if_pos h]

theorem passB_cons_neg {bnd : Bool} {c : Char} {rest : List Char}
    (h : ¬ pbCond c bnd rest) :
    passB bnd (c :: rest) =
      (c :: (passB (isSpaceB c) rest).1, (passB (isSpaceB c) rest).2) := by
  rw [passB_cons, if_neg h]

theorem passA_forall₂ : ∀ l : List Char, List.Forall₂ RelA l (passA l).1 := by
  intro l
  induction l with
  | nil => exact List.Forall₂.nil
  | cons c rest ih =>
    by_cases hc : c = '!'
    · subst hc
      cases hfind : findTem rest with
      | some n =>
        rw [passA_cons_excl_some hfind]
        exact List.Forall₂.cons (Or.inr ⟨rfl, rfl⟩) ih
      | none =>
        rw [passA_cons_excl_none hfind]
        exact List.Forall₂.cons (Or.inl rfl) ih
    · rw [passA_cons_other rest hc]
      exact List.Forall₂.cons (Or.inl rfl) ih

theorem passB_forall₂ : ∀ (l : List Char) (bnd : Bool),
    List.Forall₂ RelB l (passB bnd l).1 := by
  intro l
  induction l with
  | nil => intro bnd; exact List.Forall₂.nil
  | cons c rest ih =>
    intro bnd
    by_cases hcond : pbCond c bnd rest
    · rw [passB_cons_pos hcond]
      exact List.Forall₂.cons (Or.inr ⟨hcond.1, rfl⟩) (ih _)
    · rw [passB_cons_neg hcond]
      exact List.Forall₂.cons (Or.inl rfl) (ih _)

theorem compat_of_relA {s t : List Char} (h : List.Forall₂ RelA s t) :
    Compat s t :=
  List.Forall₂.imp (fun _ _ hab => relA_cc hab) h

theorem compat_of_relB {s t : List Char} (h : List.Forall₂ RelB s t) :
    Compat s t :=
  List.Forall₂.imp (fun _ _ hab => relB_cc hab) h

/-- A string on which pass A finds nothing to rewrite. -/
def acleanB : List Char → Bool
  | [] => true
  | c :: rest => (!(c == '!') || (findTem rest).isNone) && acleanB rest

theorem acleanB_cons {c : Char} {rest : List Char} :
    acleanB (c :: rest) = true ↔
      (c = '!' → findTem rest = none) ∧ acleanB rest = true := by
  simp only [acleanB, Bool.and_eq_true, Bool.or_eq_true, Bool.not_eq_true']
  constructor
  · rintro ⟨h1, h2⟩
    refine ⟨fun hc => ?_, h2⟩
    rcases h1 with h1 | h1
    · subst hc; simp at h1
    · exact Option.eq_none_of_isNone h1
  · rintro ⟨h1, h2⟩
    refine ⟨?_, h2⟩
    by_cases hc : c = '!'
    · exact Or.inr (by simp [h1 hc])
    · exact Or.inl (by simpa using hc)

theorem aclean_passA_id {s : List Char} (h : acleanB s = true) :
    passA s = (s, []) := by
  induction s with
  | nil => rfl
  | cons c rest ih =>
    rw [acleanB_cons] at h
    have hrest := ih h.2
    by_cases hc : c = '!'
    · subst hc
      rw [passA_cons_excl_none (h.1 rfl), hrest]
    · rw [passA_cons_other rest hc, hrest]

theorem passA_aclean : ∀ l : List Char, acleanB ((passA l).1) = true := by
  intro l
  induction l with
  | nil => rfl
  | cons c rest ih =>
    have hcompat : Compat rest ((passA rest).1) := compat_of_relA (passA_forall₂ rest)
    by_cases hc : c = '!'
    · subst hc
      cases hfind : findTem rest with
      | some n =>
        rw [passA_cons_excl_some hfind]
        rw [acleanB_cons]
        exact ⟨fun hx => absurd hx (by decide), ih⟩
      | none =>
        rw [passA_cons_excl_none hfind]
        rw [acleanB_cons]
        exact ⟨fun _ => (findTem_compat hcompat).symm.trans hfind, ih⟩
    · rw [passA_cons_other rest hc]
      rw [acleanB_cons]
      exact ⟨fun hx => absurd hx hc, ih⟩

theorem aclean_of_relB : ∀ {s t : List Char}, List.Forall₂ RelB s t →
    acleanB s = true → acleanB t = true := by
  intro s t h
  induction h with
  | nil => exact fun hx => hx
  | @cons a b l₁ l₂ hab htl ih =>
    intro ha
    rw [acleanB_cons] at ha ⊢
    refine ⟨fun hb => ?_, ih ha.2⟩
    have hax : a = '!' := by
      rcases hab with heq | ⟨_, heq⟩
      · rw [← heq, hb]
      · rw [heq] at hb; exact absurd hb (by decide)
    rw [← findTem_compat (compat_of_relB htl)]
    exact ha.1 hax

/-! ### Pass B is a projection -/

theorem isTokB_not_space {c : Char} (h : isTokB c = true) : isSpaceB c = false := by
  simp only [isTokB, Bool.not_eq_true', Bool.or_eq_false_iff] at h
  exact h.1

theorem passB_takeWhile_false : ∀ s : List Char,
    ((passB false s).1).takeWhile isTokB = s.takeWhile isTokB := by
  intro s
  induction s with
  | nil => rfl
  | cons c rest ih =>
    have hcond : ¬ pbCond c false rest := by
      rintro ⟨_, h, _⟩
      exact absurd h (by decide)
    rw [passB_cons_neg hcond]
    by_cases htok : isTokB c = true
    · have hsp : isSpaceB c = false := isTokB_not_space htok
      rw [hsp]
      simp only [List.takeWhile_cons, htok, ih]
    · have htok' : isTokB c = false := by
        cases hx : isTokB c
        · rfl
        · exact absurd hx htok
      simp only [List.takeWhile_cons, htok']
      rfl

theorem passB_idem (s : List Char) : ∀ bnd : Bool,
    passB bnd ((passB bnd s).1) = ((passB bnd s).1, []) := by
  induction s with
  | nil => intro bnd; rfl
  | cons c rest ih =>
    intro bnd
    by_cases hcond : pbCond c bnd rest
    · have hc : c = '@' := hcond.1
      subst hc
      have hsp : isSpaceB '@' = false := by decide
      rw [passB_cons_pos hcond, hsp]
      have hcond2 : ¬ pbCond '#' bnd ((passB false rest).1) := by
        rintro ⟨hx, _⟩
        exact absurd hx (by decide)
      rw [passB_cons_neg hcond2]
      have hsp2 : isSpaceB '#' = false := by decide
      rw [hsp2, ih false]
    · rw [passB_cons_neg hcond]
      have hcond2 : ¬ pbCond c bnd ((passB (isSpaceB c) rest).1) := by
        rintro ⟨hc, hbnd, hne, htem⟩
        subst hc
        have hsp : isSpaceB '@' = false := by decide
        rw [hsp] at hne htem
        rw [passB_takeWhile_false] at hne htem
        exact hcond ⟨rfl, hbnd, hne, htem⟩
      rw [passB_cons_neg hcond2, ih (isSpaceB c)]

/-! ### Idempotence of a full line migration -/

theorem migrate_line_eq (l : List Char) :
    migrate_line l = ((passB true ((passA l).1)).1,
      (passA l).2 ++ ((passB true ((passA l).1)).2).reverse) := rfl

theorem migrate_line_fst (l : List Char) :
    (migrate_line l).1 = (passB true ((passA l).1)).1 := rfl

theorem migrate_line_idem (l : List Char) :
    migrate_line ((migrate_line l).1) = ((migrate_line l).1, []) := by
  have hacl : acleanB ((passA l).1) = true := passA_aclean l
  have hrelB : List.Forall₂ RelB ((passA l).1) ((passB true ((passA l).1)).1) :=
    passB_forall₂ _ true
  have haclm : acleanB ((passB true ((passA l).1)).1) = true :=
    aclean_of_relB hrelB hacl
  have hA : passA ((passB true ((passA l).1)).1) =
      ((passB true ((passA l).1)).1, []) := aclean_passA_id haclm
  have hB : passB true ((passB true ((passA l).1)).1) =
      ((passB true ((passA l).1)).1, []) := passB_idem ((passA l).1) true
  rw [migrate_line_fst l, migrate_line_eq]
  simp only [hA, hB, List.reverse_nil, List.append_nil]

/-! ### Splitting and joining on the newline character -/

theorem splitNL_ne_nil : ∀ d : List Char, splitNL d ≠ [] := by
  intro d
  induction d with
  | nil => simp [splitNL]
  | cons c rest ih =>
    by_cases hc : c = '\n'
    · simp [splitNL, hc]
    · simp only [splitNL, if_neg hc]
      cases hs : splitNL rest with
      | nil => simp
      | cons l ls => simp

theorem splitNL_cons_nl (rest : List Char) :
    splitNL ('\n' :: rest) = [] :: splitNL rest := by
  simp [splitNL]

theorem splitNL_cons_ne {c : Char} {rest l : List Char} {ls : List (List Char)}
    (hc : c ≠ '\n') (h : splitNL rest = l :: ls) :
    splitNL (c :: rest) = (c :: l) :: ls := by
  simp only [splitNL, if_neg hc, h]

theorem splitNL_no_nl : ∀ d : List Char, ∀ l ∈ splitNL d, '\n' ∉ l := by
  intro d
  induction d with
  | nil =>
    intro l hl
    simp only [splitNL, List.mem_singleton] at hl
    simp [hl]
  | cons c rest ih =>
    intro l hl
    by_cases hc : c = '\n'
    · subst hc
      rw [splitNL_cons_nl] at hl
      rcases List.mem_cons.mp hl with rfl | hl
      · simp
      · exact ih l hl
    · obtain ⟨l0, ls0, hs⟩ := List.exists_cons_of_ne_nil (splitNL_ne_nil rest)
      rw [splitNL_cons_ne hc hs] at hl
      rcases List.mem_cons.mp hl with rfl | hl
      · intro hmem
        rcases List.mem_cons.mp hmem with heq | hmem
        · exact hc heq.symm
        · exact ih l0 (hs ▸ List.mem_cons_self l0 ls0) hmem
      · exact ih l (hs ▸ List.mem_cons_of_mem l0 hl)

theorem joinNL_cons_cons (x y : List Char) (ls : List (List Char)) :
    joinNL (x :: y :: ls) = x ++ '\n' :: joinNL (y :: ls) := rfl

theorem joinNL_splitNL : ∀ d : List Char, joinNL (splitNL d) = d := by
  intro d
  induction d with
  | nil => rfl
  | cons c rest ih =>
    obtain ⟨l0, ls0, hs⟩ := List.exists_cons_of_ne_nil (splitNL_ne_nil rest)
    by_cases hc : c = '\n'
    · subst hc
      rw [splitNL_cons_nl, hs, joinNL_cons_cons, ← hs, ih]
      rfl
    · rw [splitNL_cons_ne hc hs]
      cases ls0 with
      | nil =>
        show c :: l0 = c :: rest
        rw [hs] at ih
        exact congrArg (c :: ·) ih
      | cons a ls1 =>
        rw [joinNL_cons_cons, List.cons_append, ← joinNL_cons_cons, ← hs, ih]

theorem splitNL_single {l : List Char} (h : '\n' ∉ l) : splitNL l = [l] := by
  induction l with
  | nil => rfl
  | cons c rest ih =>
    have hc : c ≠ '\n' := fun hx => h (hx ▸ List.mem_cons_self c rest)
    have hrest : splitNL rest = [rest] := ih (fun hx => h (List.mem_cons_of_mem c hx))
    rw [splitNL_cons_ne hc hrest]

theorem splitNL_append_nl {l : List Char} (r : List Char) (h : '\n' ∉ l) :
    splitNL (l ++ '\n' :: r) = l :: splitNL r := by
  induction l with
  | nil => exact splitNL_cons_nl r
  | cons c l ih =>
    have hc : c ≠ '\n' := fun hx => h (hx ▸ List.mem_cons_self c l)
    have hl : splitNL (l ++ '\n' :: r) = l :: splitNL r :=
      ih (fun hx => h (List.mem_cons_of_mem c hx))
    rw [List.cons_append, splitNL_cons_ne hc hl]

theorem splitNL_joinNL : ∀ ms : List (List Char), ms ≠ [] →
    (∀ l ∈ ms, '\n' ∉ l) → splitNL (joinNL ms) = ms := by
  intro ms
  induction ms with
  | nil => intro h; exact absurd rfl h
  | cons l ms ih =>
    intro _ hnl
    cases ms with
    | nil => exact splitNL_single (hnl l (by simp))
    | cons m ms1 =>
      rw [joinNL_cons_cons, splitNL_append_nl _ (hnl l (by simp))]
      rw [ih (by simp) (fun x hx => hnl x (List.mem_cons_of_mem l hx))]

/-! ### Idempotence of the whole-document migration (claim C1) -/

theorem no_nl_of_forall₂ {r : Char → Char → Prop}
    (hr : ∀ a b, r a b → b = '\n' → a = '\n') :
    ∀ {s t : List Char}, List.Forall₂ r s t → '\n' ∉ s → '\n' ∉ t := by
  intro s t h
  induction h with
  | nil => intro _ hmem; simp at hmem
  | @cons a b l₁ l₂ hab htl ih =>
    intro hs hmem
    rcases List.mem_cons.mp hmem with heq | hmem
    · exact hs (List.mem_cons.mpr (Or.inl (hr a b hab heq.symm).symm))
    · exact ih (fun hx => hs (List.mem_cons_of_mem a hx)) hmem

theorem migrate_line_no_nl {l : List Char} (h : '\n' ∉ l) :
    '\n' ∉ (migrate_line l).1 := by
  have h1 : '\n' ∉ (passA l).1 :=
    no_nl_of_forall₂ (fun a b hab hb => by
      rcases hab with heq | ⟨ha, hb'⟩
      · rw [← heq, hb]
      · rw [hb'] at hb; exact absurd hb (by decide))
      (passA_forall₂ l) h
  rw [migrate_line_fst]
  exact no_nl_of_forall₂ (fun a b hab hb => by
      rcases hab with heq | ⟨ha, hb'⟩
      · rw [← heq, hb]
      · rw [hb'] at hb; exact absurd hb (by decide))
    (passB_forall₂ ((passA l).1) true) h1

theorem migrate_content_eq (d : List Char) :
    migrate_content d =
      (joinNL ((splitNL d).map (fun l => (migrate_line l).1)),
       ((splitNL d).enum).flatMap
         (fun p => ((migrate_line p.2).2).map (fun chg => lineTag p.1 chg))) := rfl

theorem map_migrate_fst_id {ms : List (List Char)}
    (h : ∀ m ∈ ms, migrate_line m = (m, [])) :
    ms.map (fun m => (migrate_line m).1) = ms := by
  induction ms with
  | nil => rfl
  | cons a ms ih =>
    simp only [List.map_cons, h a (by simp)]
    rw [ih (fun x hx => h x (by simp [hx]))]

theorem enumFrom_snd_mem {α : Type} :
    ∀ (ms : List α) (i : Nat) (p : Nat × α), p ∈ List.enumFrom i ms → p.2 ∈ ms := by
  intro ms
  induction ms with
  | nil => intro i p h; simp [List.enumFrom] at h
  | cons a ms ih =>
    intro i p h
    simp only [List.enumFrom] at h
    rcases List.mem_cons.mp h with rfl | h
    · simp
    · exact List.mem_cons_of_mem a (ih (i + 1) p h)

/-- Claim C1: migration is idempotent.  For every document text `d`,
running `migrate_content` on the migrated text returns the same text again
and an empty change list. -/
theorem C1_migrate_content_idempotent (d : List Char) :
    migrate_content ((migrate_content d).1) = ((migrate_content d).1, []) := by
  have hnl : ∀ m ∈ (splitNL d).map (fun l => (migrate_line l).1), '\n' ∉ m := by
    intro m hm
    obtain ⟨l, hl, rfl⟩ := List.mem_map.mp hm
    exact migrate_line_no_nl (splitNL_no_nl d l hl)
  have hne : (splitNL d).map (fun l => (migrate_line l).1) ≠ [] := by
    obtain ⟨l0, ls0, hs⟩ := List.exists_cons_of_ne_nil (splitNL_ne_nil d)
    rw [hs]
    simp
  have hfst : (migrate_content d).1 =
      joinNL ((splitNL d).map (fun l => (migrate_line l).1)) := rfl
  have hsplit : splitNL ((migrate_content d).1) =
      (splitNL d).map (fun l => (migrate_line l).1) := by
    rw [hfst]
    exact splitNL_joinNL _ hne hnl
  have hid : ∀ m ∈ (splitNL d).map (fun l => (migrate_line l).1),
      migrate_line m = (m, []) := by
    intro m hm
    obtain ⟨l, _, rfl⟩ := List.mem_map.mp hm
    exact migrate_line_idem l
  rw [migrate_content_eq ((migrate_content d).1), hsplit]
  refine Prod.ext ?_ ?_
  · show joinNL (((splitNL d).map (fun l => (migrate_line l).1)).map
      (fun m => (migrate_line m).1)) = (migrate_content d).1
    rw [map_migrate_fst_id hid, hfst]
  · show (((splitNL d).map (fun l => (migrate_line l).1)).enum).flatMap
      (fun p => ((migrate_line p.2).2).map (fun chg => lineTag p.1 chg)) = []
    refine flatMap_nil_of (fun p hp => ?_)
    have hmem : p.2 ∈ (splitNL d).map (fun l => (migrate_line l).1) :=
      enumFrom_snd_mem _ 0 p hp
    rw [hid p.2 hmem]
    rfl

/-! ### Lines the migration leaves alone -/

theorem migrate_line_of_passes {l : List Char}
    (hA : passA l = (l, [])) (hB : passB true l = (l, [])) :
    migrate_line l = (l, []) := by
  rw [migrate_line_eq, hA]
  show ((passB true l).1, [] ++ ((passB true l).2).reverse) = (l, [])
  rw [hB]
  rfl

/-- A string on which pass B, scanned with initial boundary flag `bnd`,
finds nothing to rewrite. -/
def bcleanB (bnd : Bool) : List Char → Bool
  | [] => true
  | c :: rest => !(decide (pbCond c bnd rest)) && bcleanB (isSpaceB c) rest

theorem bclean_passB_id : ∀ (s : List Char) (bnd : Bool),
    bcleanB bnd s = true → passB bnd s = (s, []) := by
  intro s
  induction s with
  | nil => intro bnd _; rfl
  | cons c rest ih =>
    intro bnd h
    simp only [bcleanB, Bool.and_eq_true, Bool.not_eq_true',
      decide_eq_false_iff_not] at h
    rw [passB_cons_neg h.1, ih (isSpaceB c) h.2]

/-- Claim C9: the embedding is total (`is_temporal_value` and the
migration are plain functions); the empty token is not temporal, and a
line offering no pass-A match (`acleanB`) and no pass-B match (`bcleanB`)
is returned unchanged with an empty change list. -/
theorem C9_totality_no_match_identity :
    is_temporal_value [] = false ∧
      ∀ l : List Char, acleanB l = true → bcleanB true l = true →
        migrate_line l = (l, []) :=
  ⟨by decide, fun l ha hb =>
    migrate_line_of_passes (aclean_passA_id ha) (bclean_passB_id l true hb)⟩

/-- Witness for C9 at the spec's scenario line `Just a plain line.`. -/
theorem C9_witness :
    acleanB ("Just a plain line.".data) = true ∧
      bcleanB true ("Just a plain line.".data) = true ∧
      migrate_line ("Just a plain line.".data) = ("Just a plain line.".data, []) :=
  ⟨by decide, by decide,
    C9_totality_no_match_identity.2 _ (by decide) (by decide)⟩

theorem passA_no_excl {s : List Char} (h : '!' ∉ s) : passA s = (s, []) := by
  induction s with
  | nil => rfl
  | cons c rest ih =>
    have hc : c ≠ '!' := fun hx => h (hx ▸ List.mem_cons_self c rest)
    rw [passA_cons_other rest hc, ih (fun hx => h (List.mem_cons_of_mem c hx))]

theorem passB_no_boundary : ∀ (l : List Char) (bnd : Bool),
    (bnd = true → l.head? ≠ some '@') →
    List.Chain' (fun a b => b = '@' → isSpaceB a = false) l →
    passB bnd l = (l, []) := by
  intro l
  induction l with
  | nil => intro bnd _ _; rfl
  | cons c rest ih =>
    intro bnd hh hch
    have hcond : ¬ pbCond c bnd rest := by
      rintro ⟨rfl, hbnd, _, _⟩
      exact hh hbnd rfl
    have hh' : isSpaceB c = true → rest.head? ≠ some '@' := by
      intro hsp hhead
      cases rest with
      | nil => simp at hhead
      | cons d rest1 =>
        simp only [List.head?_cons, Option.some.injEq] at hhead
        have hrel := (List.chain'_cons.mp hch).1
        rw [hrel hhead] at hsp
        exact absurd hsp (by decide)
    rw [passB_cons_neg hcond, ih (isSpaceB c) hh' hch.tail]

/-- Claim C5, amended: only pass B requires a left boundary.  A line
without `!` in which no `@` sits at the line start or after a whitespace
is returned unchanged with no changes; pass A, in contrast, converts a
matching `!` token regardless of the preceding character (see the
counterexample `x!W12`). -/
theorem C5_amended_boundary_rule (l : List Char)
    (h1 : '!' ∉ l) (h2 : l.head? ≠ some '@')
    (h3 : List.Chain' (fun a b => b = '@' → isSpaceB a = false) l) :
    migrate_line l = (l, []) :=
  migrate_line_of_passes (passA_no_excl h1)
    (passB_no_boundary l true (fun _ => h2) h3)

/-- Witness for C5's amended claim: an email-like line whose `@` is
mid-word. -/
theorem C5_amended_witness :
    migrate_line ("a@b x@y".data) = ("a@b x@y".data, []) := by
  refine C5_amended_boundary_rule _ (by decide) (by decide) ?_
  simp only [List.chain'_cons, List.chain'_singleton]
  decide

/-! ### Characters consumed by a pattern match -/

/-- Characters that can appear inside a matched temporal value: they are
never markers and never whitespace. -/
def okChar (c : Char) : Bool :=
  !(c == '!') && !(c == '@') && !(c == '#') && !(isSpaceB c)

/-- Every consumable length of the matcher covers only `okChar`
characters. -/
def MCons (m : Matcher) : Prop :=
  ∀ s n, n ∈ m s → ∀ c ∈ s.take n, okChar c = true

theorem mcons_eps : MCons mEps := by
  intro s n hn c hc
  simp only [mEps, List.mem_singleton] at hn
  subst hn
  simp at hc

theorem mcons_chars {cs : List Char} (hcs : ∀ c ∈ cs, okChar c = true) :
    MCons (mChars cs) := by
  intro s n hn c hc
  cases s with
  | nil => simp [mChars] at hn
  | cons a r =>
    simp only [mChars] at hn
    by_cases hmem : a ∈ cs
    · rw [if_pos hmem] at hn
      simp only [List.mem_singleton] at hn
      subst hn
      simp only [List.take_succ_cons, List.take_zero, List.mem_singleton] at hc
      rw [hc]
      exact hcs a hmem
    · rw [if_neg hmem] at hn
      simp at hn

theorem countLead_take {cs : List Char} :
    ∀ (s : List Char) (n : Nat), n ≤ countLead cs s → ∀ c ∈ s.take n, c ∈ cs := by
  intro s
  induction s with
  | nil => intro n _ c hc; simp at hc
  | cons a r ih =>
    intro n hn c hc
    by_cases hmem : a ∈ cs
    · cases n with
      | zero => simp at hc
      | succ k =>
        simp only [countLead, if_pos hmem] at hn
        simp only [List.take_succ_cons, List.mem_cons] at hc
        rcases hc with rfl | hc
        · exact hmem
        · exact ih k (by omega) c hc
    · simp only [countLead, if_neg hmem] at hn
      have : n = 0 := by omega
      subst this
      simp at hc

theorem mcons_rep {cs : List Char} (hcs : ∀ c ∈ cs, okChar c = true)
    (lo hi : Nat) : MCons (mRep cs lo hi) := by
  intro s n hn c hc
  simp only [mRep, descRange, List.mem_reverse, List.mem_range'_1] at hn
  have hcount : n ≤ countLead cs s := by omega
  exact hcs c (countLead_take s n hcount c hc)

theorem mcons_seq {m1 m2 : Matcher} (h1 : MCons m1) (h2 : MCons m2) :
    MCons (mSeq m1 m2) := by
  intro s n hn c hc
  simp only [mSeq, List.mem_flatMap, List.mem_map] at hn
  obtain ⟨n1, hn1, n2, hn2, rfl⟩ := hn
  rw [List.take_add] at hc
  rcases List.mem_append.mp hc with hc | hc
  · exact h1 s n1 hn1 c hc
  · exact h2 (s.drop n1) n2 hn2 c hc

theorem mcons_alt {m1 m2 : Matcher} (h1 : MCons m1) (h2 : MCons m2) :
    MCons (mAlt m1 m2) := by
  intro s n hn
  rcases List.mem_append.mp hn with hn | hn
  · exact h1 s n hn
  · exact h2 s n hn

theorem mcons_opt {m : Matcher} (h : MCons m) : MCons (mOpt m) :=
  mcons_alt h mcons_eps

theorem mcons_str {w : List Char}
    (hw : ∀ a ∈ w, okChar a = true ∧ okChar (upA a) = true) :
    MCons (mStr w) := by
  induction w with
  | nil => exact mcons_eps
  | cons a w ih =>
    refine mcons_seq (mcons_chars ?_) (ih (fun x hx => hw x (by simp [hx])))
    intro c hc
    rcases List.mem_cons.mp hc with heq | hc
    · rw [heq]; exact (hw a (by simp)).1
    · simp only [List.mem_singleton] at hc
      rw [hc]; exact (hw a (by simp)).2

theorem mcons_digits (lo hi : Nat) : MCons (mDigits lo hi) :=
  mcons_rep (by decide) lo hi

theorem altT_mcons : MCons altT := by
  have hsep : MCons sepDate := mcons_chars (by decide)
  have hwk : MCons wkChar := mcons_chars (by decide)
  have hw : MCons wChar := mcons_chars (by decide)
  have hcolon : MCons (mChars [':']) := mcons_chars (by decide)
  have hdash : MCons (mChars ['-']) := mcons_chars (by decide)
  have hdashdot : MCons (mChars ['-', '.']) := mcons_chars (by decide)
  have hyj : MCons (mChars ['Y', 'y', 'J', 'j']) := mcons_chars (by decide)
  have hampm : MCons ampm := mcons_alt (mcons_str (by decide)) (mcons_str (by decide))
  have h1 : MCons pat1 :=
    mcons_seq (mcons_digits 4 4) (mcons_seq hsep (mcons_seq (mcons_digits 1 2)
      (mcons_seq hsep (mcons_digits 1 2))))
  have h2 : MCons pat2 :=
    mcons_seq (mcons_digits 1 2) (mcons_seq hsep (mcons_seq (mcons_digits 1 2)
      (mcons_seq hsep (mcons_digits 2 4))))
  have h3 : MCons pat3 :=
    mcons_seq (mcons_digits 1 2) (mcons_seq hsep (mcons_digits 1 2))
  have h4 : MCons pat4 :=
    mcons_seq (mcons_digits 4 4) (mcons_seq (mcons_opt hdashdot)
      (mcons_seq hwk (mcons_seq (mcons_opt hw) (mcons_digits 1 2))))
  have h5 : MCons pat5 :=
    mcons_seq hwk (mcons_seq (mcons_opt hw) (mcons_digits 1 2))
  have h6 : MCons pat6 :=
    mcons_seq (mcons_digits 1 2) (mcons_seq hcolon
      (mcons_seq (mcons_digits 2 2) (mcons_opt hampm)))
  have h7 : MCons pat7 := mcons_seq (mcons_digits 1 2) hampm
  have htp : MCons timePart :=
    mcons_seq (mcons_digits 1 2) (mcons_seq (mcons_opt (mcons_seq hcolon
      (mcons_digits 2 2))) (mcons_opt hampm))
  have h8 : MCons pat8 := mcons_seq htp (mcons_seq hdash htp)
  have h9 : MCons pat9 :=
    mcons_alt (mcons_str (by decide)) (mcons_alt (mcons_str (by decide))
    (mcons_alt (mcons_str (by decide)) (mcons_alt (mcons_str (by decide))
    (mcons_alt (mcons_str (by decide)) (mcons_alt (mcons_str (by decide))
    (mcons_alt (mcons_str (by decide)) (mcons_alt (mcons_str (by decide))
    (mcons_alt (mcons_str (by decide)) (mcons_alt (mcons_str (by decide))
    (mcons_alt (mcons_str (by decide)) (mcons_alt (mcons_str (by decide))
    (mcons_alt (mcons_str (by decide)) (mcons_str (by decide))))))))))))))
  have h10 : MCons pat10 := mcons_seq hyj (mcons_digits 4 4)
  exact mcons_alt h1 (mcons_alt h2 (mcons_alt h3 (mcons_alt h4 (mcons_alt h5
    (mcons_alt h6 (mcons_alt h7 (mcons_alt h8 (mcons_alt h9 h10))))))))

/-! ### A bounded token occurrence under pass B -/

theorem okChar_tok {c : Char} (h : okChar c = true) : isTokB c = true := by
  simp only [okChar, Bool.and_eq_true, Bool.not_eq_true'] at h
  obtain ⟨⟨⟨h1, h2⟩, h3⟩, h4⟩ := h
  simp [isTokB, h2, h4]

theorem okChar_ne_excl {c : Char} (h : okChar c = true) : c ≠ '!' := by
  simp only [okChar, Bool.and_eq_true, Bool.not_eq_true'] at h
  obtain ⟨⟨⟨h1, _⟩, _⟩, _⟩ := h
  simpa using h1

theorem isTokB_of_space {c : Char} (h : isSpaceB c = true) : isTokB c = false := by
  simp [isTokB, h]

theorem temporal_chars_ok {t : List Char} (htem : is_temporal_value t = true)
    (hws : ∀ c ∈ t, isSpaceB c = false) : ∀ c ∈ t, okChar c = true := by
  obtain ⟨n, hn⟩ : ∃ n, findTem t = some n :=
    Option.isSome_iff_exists.mp (by simpa [is_temporal_value] using htem)
  have hmem : n ∈ altT t := List.mem_of_find?_eq_some hn
  have hbd : boundaryB t n = true := List.find?_some hn
  have hdrop : t.drop n = [] := by
    cases hd : t.drop n with
    | nil => rfl
    | cons c r =>
      have hc : c ∈ t := List.drop_subset n t (hd ▸ List.mem_cons_self c r)
      have hsp : isSpaceB c = true := by simpa [boundaryB, hd] using hbd
      rw [hws c hc] at hsp
      exact absurd hsp (by decide)
  have hlen : t.length ≤ n := List.drop_eq_nil_iff.mp hdrop
  have htake := altT_mcons t n hmem
  intro c hc
  exact htake c (by rwa [List.take_of_length_le hlen])

theorem takeWhile_append_tok {t v : List Char} (ht : ∀ c ∈ t, isTokB c = true)
    (hv : v = [] ∨ ∃ c v0, v = c :: v0 ∧ isSpaceB c = true) :
    (t ++ v).takeWhile isTokB = t := by
  induction t with
  | nil =>
    rcases hv with rfl | ⟨c, v0, rfl, hsp⟩
    · rfl
    · simp [List.takeWhile_cons, isTokB_of_space hsp]
  | cons a t ih =>
    have hat := ht a (by simp)
    have hih := ih (fun c hc => ht c (by simp [hc]))
    simp [List.takeWhile_cons, hat, hih]

theorem passB_tok_run : ∀ (t v : List Char), (∀ c ∈ t, isTokB c = true) →
    passB false (t ++ v) = (t ++ (passB false v).1, (passB false v).2) := by
  intro t
  induction t with
  | nil => intro v _; rfl
  | cons a t ih =>
    intro v ht
    have hcond : ¬ pbCond a false (t ++ v) := by
      rintro ⟨_, hb, _⟩
      exact absurd hb (by decide)
    rw [List.cons_append, passB_cons_neg hcond]
    have hsp : isSpaceB a = false := isTokB_not_space (ht a (by simp))
    rw [hsp, ih v (fun c hc => ht c (by simp [hc]))]
    rfl

theorem passB_at_token (t v : List Char) (htok : ∀ c ∈ t, isTokB c = true)
    (hne : t ≠ [])
    (hv : v = [] ∨ ∃ c v0, v = c :: v0 ∧ isSpaceB c = true) :
    ∀ (u : List Char) (bnd : Bool),
      (u = [] → bnd = true) →
      (∀ w c, u = w ++ [c] → isSpaceB c = true) →
      ∃ u' ch,
        passB bnd (u ++ '@' :: (t ++ v)) =
          (u' ++ (if is_temporal_value t = true then '@' else '#') ::
            (t ++ (passB false v).1), ch) ∧
        u'.length = u.length ∧
        (is_temporal_value t = false → atChg t ∈ ch) := by
  intro u
  induction u with
  | nil =>
    intro bnd hbnd _
    have hbnd' := hbnd rfl
    subst hbnd'
    have hr : (t ++ v).takeWhile isTokB = t := takeWhile_append_tok htok hv
    by_cases htem : is_temporal_value t = true
    · have hcond : ¬ pbCond '@' true (t ++ v) := by
        rintro ⟨_, _, _, hfalse⟩
        rw [hr, htem] at hfalse
        exact absurd hfalse (by decide)
      rw [List.nil_append, passB_cons_neg hcond]
      have hsp : isSpaceB '@' = false := by decide
      rw [hsp, passB_tok_run t v htok]
      refine ⟨[], (passB false v).2, ?_, rfl, ?_⟩
      · rw [if_pos htem]
        rfl
      · intro hcontra
        rw [htem] at hcontra
        exact absurd hcontra (by decide)
    · have htem' : is_temporal_value t = false := by
        cases hx : is_temporal_value t
        · rfl
        · exact absurd hx htem
      have hcond : pbCond '@' true (t ++ v) := by
        refine ⟨rfl, rfl, ?_, ?_⟩ <;> rw [hr]
        · exact hne
        · exact htem'
      rw [List.nil_append, passB_cons_pos hcond]
      have hsp : isSpaceB '@' = false := by decide
      rw [hsp, hr, passB_tok_run t v htok]
      refine ⟨[], atChg t :: (passB false v).2, ?_, rfl, fun _ => by simp⟩
      rw [if_neg htem]
      rfl
  | cons x u ih =>
    intro bnd hbnd hlast
    have hbnd' : u = [] → isSpaceB x = true := by
      intro hu
      subst hu
      exact hlast [] x rfl
    have hlast' : ∀ w c, u = w ++ [c] → isSpaceB c = true := by
      intro w c hw
      exact hlast (x :: w) c (by rw [hw]; rfl)
    obtain ⟨u', ch, heq, hlen, hmem⟩ := ih (isSpaceB x) hbnd' hlast'
    by_cases hcond : pbCond x bnd (u ++ '@' :: (t ++ v))
    · rw [List.cons_append, passB_cons_pos hcond, heq]
      exact ⟨'#' :: u', atChg ((u ++ '@' :: (t ++ v)).takeWhile isTokB) :: ch, rfl,
        by simp [hlen], fun h => List.mem_cons_of_mem _ (hmem h)⟩
    · rw [List.cons_append, passB_cons_neg hcond, heq]
      exact ⟨x :: u', ch, rfl, by simp [hlen], hmem⟩

/-! ### Decomposition of the pass-A output around a token occurrence -/

theorem forall₂_append_inv_l {α β : Type} {r : α → β → Prop} :
    ∀ {xs ys : List α} {zs : List β}, List.Forall₂ r (xs ++ ys) zs →
      ∃ zs1 zs2, zs = zs1 ++ zs2 ∧ List.Forall₂ r xs zs1 ∧ List.Forall₂ r ys zs2 := by
  intro xs
  induction xs with
  | nil => intro ys zs h; exact ⟨[], zs, rfl, List.Forall₂.nil, h⟩
  | cons a xs ih =>
    intro ys zs h
    rw [List.cons_append] at h
    cases h with
    | @cons _ b _ zs' hab htl =>
      obtain ⟨zs1, zs2, rfl, h1, h2⟩ := ih htl
      exact ⟨b :: zs1, zs2, rfl, List.Forall₂.cons hab h1, h2⟩

theorem relA_eq_of_ne {a b : Char} (h : RelA a b) (ha : a ≠ '!') : b = a := by
  rcases h with rfl | ⟨rfl, _⟩
  · rfl
  · exact absurd rfl ha

theorem forall₂_relA_eq {xs ys : List Char} (h : List.Forall₂ RelA xs ys)
    (hx : ∀ c ∈ xs, c ≠ '!') : ys = xs := by
  induction h with
  | nil => rfl
  | @cons a b l₁ l₂ hab htl ih =>
    rw [ih (fun c hc => hx c (by simp [hc])), relA_eq_of_ne hab (hx a (by simp))]

theorem space_ne_excl {c : Char} (h : isSpaceB c = true) : c ≠ '!' := by
  intro hc
  rw [hc] at h
  exact absurd h (by decide)

theorem concat_last_eq {α : Type} {w w1 : List α} {c c1 : α}
    (h : w ++ [c] = w1 ++ [c1]) : c = c1 := by
  have h1 := congrArg List.getLast? h
  rw [List.getLast?_concat, List.getLast?_concat] at h1
  exact Option.some.injEq c c1 ▸ h1

/-- Shape of the pass-A output on a line holding a bounded `@`-token whose
text contains no `!`: the token span survives pass A verbatim and the
surrounding pieces keep their length and their boundary whitespace. -/
theorem passA_around_token {t u v : List Char}
    (hexcl : ∀ c ∈ t, c ≠ '!')
    (hu : u = [] ∨ ∃ w c, u = w ++ [c] ∧ isSpaceB c = true)
    (hv : v = [] ∨ ∃ c v0, v = c :: v0 ∧ isSpaceB c = true) :
    ∃ u1 v1,
      (passA (u ++ '@' :: (t ++ v))).1 = u1 ++ '@' :: (t ++ v1) ∧
      u1.length = u.length ∧ v1.length = v.length ∧
      (u1 = [] ∨ ∃ w c, u1 = w ++ [c] ∧ isSpaceB c = true) ∧
      (v1 = [] ∨ ∃ c v0, v1 = c :: v0 ∧ isSpaceB c = true) := by
  have hA := passA_forall₂ (u ++ '@' :: (t ++ v))
  obtain ⟨u1, z2, hz, hfu, hf2⟩ := forall₂_append_inv_l hA
  cases hf2 with
  | @cons _ b _ z3 hat hf3 =>
    have hb : b = '@' := relA_eq_of_ne hat (by decide)
    subst hb
    obtain ⟨t1, v1, hz3, hft, hfv⟩ := forall₂_append_inv_l hf3
    have ht1 : t1 = t := forall₂_relA_eq hft hexcl
    subst ht1
    refine ⟨u1, v1, by rw [hz, hz3], (hfu.length_eq).symm, (hfv.length_eq).symm,
      ?_, ?_⟩
    · rcases hu with rfl | ⟨w, c, rfl, hsp⟩
      · cases hfu
        exact Or.inl rfl
      · obtain ⟨w1, z, rfl, hfw, hfc⟩ := forall₂_append_inv_l hfu
        cases hfc with
        | @cons _ c1 _ z' hcc hfz =>
          cases hfz
          have hc1 : c1 = c := relA_eq_of_ne hcc (space_ne_excl hsp)
          exact Or.inr ⟨w1, c1, rfl, by rw [hc1]; exact hsp⟩
    · rcases hv with rfl | ⟨c, v0, rfl, hsp⟩
      · cases hfv
        exact Or.inl rfl
      · cases hfv with
        | @cons _ c1 _ v01 hcc hfv0 =>
          have hc1 : c1 = c := relA_eq_of_ne hcc (space_ne_excl hsp)
          exact Or.inr ⟨c1, v01, rfl, by rw [hc1]; exact hsp⟩

/-! ### Change descriptions never fabricate a temporal rewrite -/

theorem passA_changes_exChg : ∀ l : List Char, ∀ x ∈ (passA l).2, ∃ w, x = exChg w := by
  intro l
  induction l with
  | nil => intro x hx; simp [passA] at hx
  | cons c rest ih =>
    intro x hx
    by_cases hc : c = '!'
    · subst hc
      cases hfind : findTem rest with
      | some n =>
        rw [passA_cons_excl_some hfind] at hx
        rcases List.mem_cons.mp hx with heq | hx
        · exact ⟨rest.take n, heq⟩
        · exact ih x hx
      | none =>
        rw [passA_cons_excl_none hfind] at hx
        exact ih x hx
    · rw [passA_cons_other rest hc] at hx
      exact ih x hx

theorem exChg_ne_atChg (w t : List Char) : exChg w ≠ atChg t := by
  intro h
  unfold exChg atChg at h
  injection h with h1 _
  exact absurd h1 (by decide)

theorem atChg_inj {x y : List Char} (h : atChg x = atChg y) : x = y := by
  unfold atChg at h
  injection h with _ h2
  have hlen : x.length = y.length := by
    have hl := congrArg List.length h2
    simp only [List.length_append, List.length_cons] at hl
    omega
  exact (List.append_inj h2 hlen).1

theorem atChg_not_in_passB {t : List Char} (htem : is_temporal_value t = true) :
    ∀ (s : List Char) (bnd : Bool), atChg t ∉ (passB bnd s).2 := by
  intro s
  induction s with
  | nil => intro bnd h; simp [passB] at h
  | cons c rest ih =>
    intro bnd hmem
    by_cases hcond : pbCond c bnd rest
    · rw [passB_cons_pos hcond] at hmem
      rcases List.mem_cons.mp hmem with heq | hmem
      · have ht := atChg_inj heq
        rw [ht, hcond.2.2.2] at htem
        exact absurd htem (by decide)
      · exact ih (isSpaceB c) hmem
    · rw [passB_cons_neg hcond] at hmem
      exact ih (isSpaceB c) hmem

theorem atChg_not_in_migrate {t : List Char} (htem : is_temporal_value t = true)
    (l : List Char) : atChg t ∉ (migrate_line l).2 := by
  rw [migrate_line_eq]
  intro hmem
  rcases List.mem_append.mp hmem with h | h
  · obtain ⟨w, hw⟩ := passA_changes_exChg l _ h
    exact exChg_ne_atChg w t hw.symm
  · exact atChg_not_in_passB htem _ true (List.mem_reverse.mp h)

/-- Claim C2: temporal tokens are stable.  For a temporal, whitespace-free
token `t`, a bounded occurrence `@t` of it (`@` at line start or after a
whitespace, `t` followed by a whitespace or the line end) is still `@t`
after `migrate_line`, the surrounding pieces keep their lengths, and the
change `@t -> #t` is never recorded. -/
theorem C2_temporal_token_never_rewritten (t u v : List Char)
    (htem : is_temporal_value t = true)
    (hws : ∀ c ∈ t, isSpaceB c = false)
    (hu : u = [] ∨ ∃ w c, u = w ++ [c] ∧ isSpaceB c = true)
    (hv : v = [] ∨ ∃ c v0, v = c :: v0 ∧ isSpaceB c = true) :
    ∃ u' v',
      (migrate_line (u ++ '@' :: (t ++ v))).1 = u' ++ '@' :: (t ++ v') ∧
      u'.length = u.length ∧ v'.length = v.length ∧
      atChg t ∉ (migrate_line (u ++ '@' :: (t ++ v))).2 := by
  have hok : ∀ c ∈ t, okChar c = true := temporal_chars_ok htem hws
  have htok : ∀ c ∈ t, isTokB c = true := fun c hc => okChar_tok (hok c hc)
  have hexcl : ∀ c ∈ t, c ≠ '!' := fun c hc => okChar_ne_excl (hok c hc)
  have hne : t ≠ [] := by
    rintro rfl
    rw [show is_temporal_value [] = false by decide] at htem
    exact absurd htem (by decide)
  obtain ⟨u1, v1, hr1, hlu1, hlv1, hu1, hv1⟩ := passA_around_token hexcl hu hv
  have hlast1 : ∀ w c, u1 = w ++ [c] → isSpaceB c = true := by
    intro w c hw
    rcases hu1 with rfl | ⟨w1, c1, he, hsp⟩
    · exact absurd hw.symm (List.append_ne_nil_of_right_ne_nil w (by simp))
    · rw [he] at hw
      rw [concat_last_eq hw.symm]
      exact hsp
  obtain ⟨u', ch, heqB, hlenB, _⟩ :=
    passB_at_token t v1 htok hne hv1 u1 true (fun _ => rfl) hlast1
  refine ⟨u', (passB false v1).1, ?_, ?_, ?_, atChg_not_in_migrate htem _⟩
  · rw [migrate_line_fst, hr1, heqB, if_pos htem]
  · rw [hlenB, hlu1]
  · rw [← hlv1]
    exact ((passB_forall₂ v1 false).length_eq).symm

/-- Witness for C2: the temporal token `W12` at line start, `@W12`. -/
theorem C2_witness :
    ∃ u' v',
      (migrate_line ([] ++ '@' :: ("W12".data ++ []))).1 =
        u' ++ '@' :: ("W12".data ++ v') ∧
      u'.length = ([] : List Char).length ∧
      v'.length = ([] : List Char).length ∧
      atChg ("W12".data) ∉ (migrate_line ([] ++ '@' :: ("W12".data ++ []))).2 :=
  C2_temporal_token_never_rewritten ("W12".data) [] []
    (by decide) (by decide) (Or.inl rfl) (Or.inl rfl)

/-- Claim C3, amended: a non-temporal token converts when it is a clean
token: for `t` non-empty, containing no whitespace, no `@` and no `!`, a
bounded occurrence `@t` (`@` at line start or after whitespace, `t`
followed by whitespace or line end) is rewritten to `#t` with the token
text intact, and the change `@t -> #t` is recorded. -/
theorem C3_amended_nontemporal_converts (t u v : List Char)
    (hne : t ≠ [])
    (hchars : ∀ c ∈ t, isSpaceB c = false ∧ c ≠ '@' ∧ c ≠ '!')
    (htem : is_temporal_value t = false)
    (hu : u = [] ∨ ∃ w c, u = w ++ [c] ∧ isSpaceB c = true)
    (hv : v = [] ∨ ∃ c v0, v = c :: v0 ∧ isSpaceB c = true) :
    ∃ u' v',
      (migrate_line (u ++ '@' :: (t ++ v))).1 = u' ++ '#' :: (t ++ v') ∧
      u'.length = u.length ∧ v'.length = v.length ∧
      atChg t ∈ (migrate_line (u ++ '@' :: (t ++ v))).2 := by
  have htok : ∀ c ∈ t, isTokB c = true := by
    intro c hc
    obtain ⟨h1, h2, _⟩ := hchars c hc
    simp [isTokB, h1, h2]
  have hexcl : ∀ c ∈ t, c ≠ '!' := fun c hc => (hchars c hc).2.2
  obtain ⟨u1, v1, hr1, hlu1, hlv1, hu1, hv1⟩ := passA_around_token hexcl hu hv
  have hlast1 : ∀ w c, u1 = w ++ [c] → isSpaceB c = true := by
    intro w c hw
    rcases hu1 with rfl | ⟨w1, c1, he, hsp⟩
    · exact absurd hw.symm (List.append_ne_nil_of_right_ne_nil w (by simp))
    · rw [he] at hw
      rw [concat_last_eq hw.symm]
      exact hsp
  obtain ⟨u', ch, heqB, hlenB, hmemB⟩ :=
    passB_at_token t v1 htok hne hv1 u1 true (fun _ => rfl) hlast1
  have hnottem : ¬ is_temporal_value t = true := by
    rw [htem]
    decide
  refine ⟨u', (passB false v1).1, ?_, ?_, ?_, ?_⟩
  · rw [migrate_line_fst, hr1, heqB, if_neg hnottem]
  · rw [hlenB, hlu1]
  · rw [← hlv1]
    exact ((passB_forall₂ v1 false).length_eq).symm
  · rw [migrate_line_eq]
    refine List.mem_append.mpr (Or.inr ?_)
    rw [hr1, heqB]
    exact List.mem_reverse.mpr (hmemB htem)
/-- Witness for C3's amended claim: the token `bob` in the line `hi @bob`. -/
theorem C3_amended_witness :
    ∃ u' v',
      (migrate_line (("hi ".data) ++ '@' :: ("bob".data ++ []))).1 =
        u' ++ '#' :: ("bob".data ++ v') ∧
      u'.length = ("hi ".data).length ∧
      v'.length = ([] : List Char).length ∧
      atChg ("bob".data) ∈ (migrate_line (("hi ".data) ++ '@' :: ("bob".data ++ []))).2 :=
  C3_amended_nontemporal_converts ("bob".data) ("hi ".data) []
    (by decide) (by decide) (by decide)
    (Or.inr ⟨"hi".data, ' ', by decide, by decide⟩) (Or.inl rfl)

/-! ### The frame property (claim C8) -/

/-- The frame relation: each position either keeps its input character or
is a rewritten prefix character (a `!` rewritten by pass A, possibly
further rewritten by pass B; a `@` rewritten by pass B). -/
def Rel3 (a b : Char) : Prop :=
  b = a ∨ (a = '!' ∧ (b = '@' ∨ b = '#')) ∨ (a = '@' ∧ b = '#')

theorem relA_relB_rel3 {a m b : Char} (h1 : RelA a m) (h2 : RelB m b) :
    Rel3 a b := by
  rcases h1 with rfl | ⟨ha, hm⟩
  · rcases h2 with rfl | ⟨hb1, hb2⟩
    · exact Or.inl rfl
    · exact Or.inr (Or.inr ⟨hb1, hb2⟩)
  · subst hm
    rcases h2 with rfl | ⟨_, hb2⟩
    · exact Or.inr (Or.inl ⟨ha, Or.inl rfl⟩)
    · exact Or.inr (Or.inl ⟨ha, Or.inr hb2⟩)

theorem forall₂_comp_rel3 : ∀ {x y z : List Char},
    List.Forall₂ RelA x y → List.Forall₂ RelB y z → List.Forall₂ Rel3 x z := by
  intro x y z h1
  induction h1 generalizing z with
  | nil =>
    intro h2
    cases h2
    exact List.Forall₂.nil
  | @cons a m l₁ l₂ ham htl ih =>
    intro h2
    cases h2 with
    | @cons _ b _ z' hmb htl2 =>
      exact List.Forall₂.cons (relA_relB_rel3 ham hmb) (ih htl2)

theorem migrate_line_rel3 (l : List Char) :
    List.Forall₂ Rel3 l (migrate_line l).1 := by
  rw [migrate_line_fst]
  exact forall₂_comp_rel3 (passA_forall₂ l) (passB_forall₂ ((passA l).1) true)

theorem forall₂_map_self {α β : Type} {r : α → β → Prop} {f : α → β}
    (h : ∀ a, r a (f a)) : ∀ ls : List α, List.Forall₂ r ls (ls.map f) := by
  intro ls
  induction ls with
  | nil => exact List.Forall₂.nil
  | cons a ls ih => exact List.Forall₂.cons (h a) ih

theorem forall₂_joinNL : ∀ {ls ms : List (List Char)},
    List.Forall₂ (List.Forall₂ Rel3) ls ms →
    List.Forall₂ Rel3 (joinNL ls) (joinNL ms) := by
  intro ls ms h
  induction h with
  | nil => exact List.Forall₂.nil
  | @cons l m ls' ms' hlm htl ih =>
    cases htl with
    | nil => exact hlm
    | @cons l2 m2 ls2 ms2 h2 htl2 =>
      rw [joinNL_cons_cons, joinNL_cons_cons]
      exact List.rel_append hlm (List.Forall₂.cons (Or.inl rfl) ih)

theorem migrate_content_rel3 (d : List Char) :
    List.Forall₂ Rel3 d (migrate_content d).1 := by
  have h1 : List.Forall₂ (List.Forall₂ Rel3) (splitNL d)
      ((splitNL d).map (fun l => (migrate_line l).1)) :=
    forall₂_map_self migrate_line_rel3 (splitNL d)
  have h2 := forall₂_joinNL h1
  rw [joinNL_splitNL] at h2
  exact h2

/-- Claim C8: the frame property.  `migrate_line` preserves the length of
every line and changes a position only as a rewritten prefix character
(`Rel3`); `migrate_content` additionally preserves the document length,
the per-position frame relation (hence every `\n` separator stays in
place) and the number of lines. -/
theorem C8_frame_property :
    (∀ l : List Char, (migrate_line l).1.length = l.length ∧
        List.Forall₂ Rel3 l (migrate_line l).1) ∧
      (∀ d : List Char, (migrate_content d).1.length = d.length ∧
        List.Forall₂ Rel3 d (migrate_content d).1 ∧
        (splitNL ((migrate_content d).1)).length = (splitNL d).length) := by
  constructor
  · intro l
    exact ⟨(migrate_line_rel3 l).length_eq.symm, migrate_line_rel3 l⟩
  · intro d
    refine ⟨(migrate_content_rel3 d).length_eq.symm, migrate_content_rel3 d, ?_⟩
    have hnl : ∀ m ∈ (splitNL d).map (fun l => (migrate_line l).1), '\n' ∉ m := by
      intro m hm
      obtain ⟨l, hl, rfl⟩ := List.mem_map.mp hm
      exact migrate_line_no_nl (splitNL_no_nl d l hl)
    have hne : (splitNL d).map (fun l => (migrate_line l).1) ≠ [] := by
      obtain ⟨l0, ls0, hs⟩ := List.exists_cons_of_ne_nil (splitNL_ne_nil d)
      rw [hs]
      simp
    have hsplit : splitNL ((migrate_content d).1) =
        (splitNL d).map (fun l => (migrate_line l).1) :=
      splitNL_joinNL _ hne hnl
    rw [hsplit, List.length_map]

/-! ### The mid-word and maximal-run policy of pass B (claim C10) -/

/-- A `@` immediately preceded by any non-whitespace character is never
rewritten by pass B, on every line and in every scan state: the preceding
character and the `@` both survive and the surrounding pieces keep their
lengths.  (When the preceding character is itself a `@`, its own candidate
run is empty, so it is not rewritten either.) -/
theorem passB_midword_at : ∀ (u : List Char) (bnd : Bool) (c : Char) (v : List Char),
    isSpaceB c = false →
    ∃ u' v', (passB bnd (u ++ c :: '@' :: v)).1 = u' ++ c :: '@' :: v' ∧
      u'.length = u.length ∧ v'.length = v.length := by
  intro u
  induction u with
  | nil =>
    intro bnd c v hc
    have hrun : List.takeWhile isTokB ('@' :: v) = [] := by
      have h0 : isTokB '@' = false := by decide
      rw [List.takeWhile_cons, h0]
      rfl
    have hcond1 : ¬ pbCond c bnd ('@' :: v) := by
      rintro ⟨rfl, _, hne, _⟩
      exact hne hrun
    rw [List.nil_append, passB_cons_neg hcond1, hc]
    have hcond2 : ¬ pbCond '@' false v := by
      rintro ⟨_, hb, _⟩
      exact absurd hb (by decide)
    rw [passB_cons_neg hcond2]
    have hsp : isSpaceB '@' = false := by decide
    rw [hsp]
    exact ⟨[], (passB false v).1, rfl, rfl, ((passB_forall₂ v false).length_eq).symm⟩
  | cons x u ih =>
    intro bnd c v hc
    obtain ⟨u', v', heq, hlu, hlv⟩ := ih (isSpaceB x) c v hc
    by_cases hcond : pbCond x bnd (u ++ c :: '@' :: v)
    · rw [List.cons_append, passB_cons_pos hcond]
      refine ⟨'#' :: u', v', ?_, by simp [hlu], hlv⟩
      show '#' :: (passB (isSpaceB x) (u ++ c :: '@' :: v)).1 = ('#' :: u') ++ c :: '@' :: v'
      rw [heq]
      rfl
    · rw [List.cons_append, passB_cons_neg hcond]
      refine ⟨x :: u', v', ?_, by simp [hlu], hlv⟩
      show x :: (passB (isSpaceB x) (u ++ c :: '@' :: v)).1 = (x :: u') ++ c :: '@' :: v'
      rw [heq]
      rfl

/-- At every boundary `@` (line start, or preceded by a whitespace), the
pass-B candidate token is exactly the maximal run of non-whitespace
non-`@` characters after the `@` (`takeWhile isTokB`): the `@` is
rewritten to `#` precisely when that run is nonempty and not temporal, in
which case the change for that run is recorded; everything around keeps
its length. -/
theorem passB_candidate_maximal_run : ∀ (u : List Char) (bnd : Bool) (rest : List Char),
    (u = [] → bnd = true) →
    (∀ w c, u = w ++ [c] → isSpaceB c = true) →
    ∃ u' rest' ch,
      passB bnd (u ++ '@' :: rest) =
        (u' ++ (if rest.takeWhile isTokB ≠ [] ∧
            is_temporal_value (rest.takeWhile isTokB) = false then '#' else '@') :: rest',
          ch) ∧
      u'.length = u.length ∧ rest'.length = rest.length ∧
      (rest.takeWhile isTokB ≠ [] →
        is_temporal_value (rest.takeWhile isTokB) = false →
        atChg (rest.takeWhile isTokB) ∈ ch) := by
  intro u
  induction u with
  | nil =>
    intro bnd rest hbnd _
    have hb := hbnd rfl
    subst hb
    by_cases hcase : rest.takeWhile isTokB ≠ [] ∧
        is_temporal_value (rest.takeWhile isTokB) = false
    · have hcond : pbCond '@' true rest := ⟨rfl, rfl, hcase.1, hcase.2⟩
      rw [List.nil_append, passB_cons_pos hcond]
      have hsp : isSpaceB '@' = false := by decide
      rw [hsp]
      refine ⟨[], (passB false rest).1,
        atChg (rest.takeWhile isTokB) :: (passB false rest).2, ?_, rfl,
        ((passB_forall₂ rest false).length_eq).symm, fun _ _ => by simp⟩
      rw [if_pos hcase]
      rfl
    · have hcond : ¬ pbCond '@' true rest := by
        rintro ⟨_, _, hne, htem⟩
        exact hcase ⟨hne, htem⟩
      rw [List.nil_append, passB_cons_neg hcond]
      have hsp : isSpaceB '@' = false := by decide
      rw [hsp]
      refine ⟨[], (passB false rest).1, (passB false rest).2, ?_, rfl,
        ((passB_forall₂ rest false).length_eq).symm,
        fun hne htem => absurd ⟨hne, htem⟩ hcase⟩
      rw [if_neg hcase]
      rfl
  | cons x u ih =>
    intro bnd rest hbnd hlast
    have hbnd' : u = [] → isSpaceB x = true := by
      intro hu
      subst hu
      exact hlast [] x rfl
    have hlast' : ∀ w c, u = w ++ [c] → isSpaceB c = true := by
      intro w c hw
      exact hlast (x :: w) c (by rw [hw]; rfl)
    obtain ⟨u', rest', ch, heq, hlu, hlr, hmem⟩ := ih (isSpaceB x) rest hbnd' hlast'
    by_cases hcond : pbCond x bnd (u ++ '@' :: rest)
    · rw [List.cons_append, passB_cons_pos hcond, heq]
      exact ⟨'#' :: u', rest', atChg ((u ++ '@' :: rest).takeWhile isTokB) :: ch,
        rfl, by simp [hlu], hlr, fun h1 h2 => List.mem_cons_of_mem _ (hmem h1 h2)⟩
    · rw [List.cons_append, passB_cons_neg hcond, heq]
      exact ⟨x :: u', rest', ch, rfl, by simp [hlu], hlr, hmem⟩

/-- Claim C10: the pass-B candidate token is the maximal run of
non-whitespace non-`@` characters after a `@` preceded by line-start or
whitespace, and it alone decides the rewrite; a `@` immediately preceded
by a non-whitespace character is never rewritten, on every line.
Consequently the line `user@example.com` is returned unchanged with no
changes, and `@user@example.com` becomes `#user@example.com` with the
single change `@user -> #user` (only the segment before the second `@` is
the classified token; the rest is untouched). -/
theorem C10_midword_at_policy :
    (∀ (u : List Char) (bnd : Bool) (c : Char) (v : List Char),
        isSpaceB c = false →
        ∃ u' v', (passB bnd (u ++ c :: '@' :: v)).1 = u' ++ c :: '@' :: v' ∧
          u'.length = u.length ∧ v'.length = v.length) ∧
      (∀ (u : List Char) (bnd : Bool) (rest : List Char),
        (u = [] → bnd = true) →
        (∀ w c, u = w ++ [c] → isSpaceB c = true) →
        ∃ u' rest' ch,
          passB bnd (u ++ '@' :: rest) =
            (u' ++ (if rest.takeWhile isTokB ≠ [] ∧
                is_temporal_value (rest.takeWhile isTokB) = false then '#' else '@') ::
              rest', ch) ∧
          u'.length = u.length ∧ rest'.length = rest.length ∧
          (rest.takeWhile isTokB ≠ [] →
            is_temporal_value (rest.takeWhile isTokB) = false →
            atChg (rest.takeWhile isTokB) ∈ ch)) ∧
      migrate_line ("user@example.com".data) = ("user@example.com".data, []) ∧
      migrate_line ("@user@example.com".data) =
        ("#user@example.com".data, ["@user -> #user".data]) :=
  ⟨passB_midword_at, passB_candidate_maximal_run, by decide, by decide⟩

/-- Witness for C10: the mid-word `@` of `user@example.com` (universal
conjunct applied at its preceding character `r`), and the boundary `@` of
`@user@example.com`, whose maximal run is `user`. -/
theorem C10_policy_witness :
    (∃ u' v', (passB true ("use".data ++ 'r' :: '@' :: "example.com".data)).1 =
        u' ++ 'r' :: '@' :: v' ∧ u'.length = ("use".data).length ∧
        v'.length = ("example.com".data).length) ∧
      (∃ u' rest' ch,
        passB true ([] ++ '@' :: "user@example.com".data) =
          (u' ++ '#' :: rest', ch) ∧
        u'.length = 0 ∧ rest'.length = ("user@example.com".data).length ∧
        atChg (("user@example.com".data).takeWhile isTokB) ∈ ch) := by
  constructor
  · exact C10_midword_at_policy.1 ("use".data) true 'r' ("example.com".data) (by decide)
  · obtain ⟨u', rest', ch, heq, h1, h2, h3⟩ :=
      C10_midword_at_policy.2.1 [] true ("user@example.com".data)
        (fun _ => rfl) (by intro w c h; exact absurd h.symm (by simp))
    rw [if_pos (by decide : ("user@example.com".data).takeWhile isTokB ≠ [] ∧
      is_temporal_value (("user@example.com".data).takeWhile isTokB) = false)] at heq
    exact ⟨u', rest', ch, heq, h1, h2, h3 (by decide) (by decide)⟩
